import Mathlib

/-!
# Verification of the `egui_timeline` musical-grid engine

Shallow embedding of the repository's core computation (`src/ruler.rs`,
`src/lib.rs`, `src/playhead.rs`): the grid-step generator `Steps`, the
tick/pixel coordinate mapping, the viewport gesture handler, the ruler
click controller and the playhead controller.

`f32` values are modelled as exact rationals (`ℚ`); machine floating
point rounding is abstracted away, which is the standard reading of the
spec's "up to floating-point tolerance" clauses.  The two source loops
without a structural termination argument (the beat-subdivision doubling
loop and the `'bars`/`'ticks` loop of `Steps::next`) are modelled with
explicit fuel: a `none` result means the fuel ran out, so genuine
divergence of the source loop corresponds to `none` for every fuel.
-/

namespace EguiTimeline

/-- Time signature, from `src/lib.rs` (`TimeSig { top: u16, bottom: u16 }`). -/
structure TimeSig where
  top : ℕ
  bottom : ℕ
  deriving DecidableEq, Repr

/-- A bar, from `src/lib.rs` (`Bar { tick_range: Range<f32>, time_sig: TimeSig }`).
The half-open tick range `start..stop` carries the bar's time signature. -/
structure Bar where
  start : ℚ
  stop : ℚ
  time_sig : TimeSig
  deriving DecidableEq, Repr

/-- One grid step, from `src/ruler.rs` (`Step`). -/
structure Step where
  index_in_bar : ℕ
  ticks : ℚ
  x : ℚ
  deriving DecidableEq, Repr

/-- Generator state, from `src/ruler.rs` (`struct Steps`). -/
structure Steps where
  ticks_per_beat : ℚ
  ticks_per_point : ℚ
  visible_ticks : ℚ
  min_step_ticks : ℚ
  index_in_bar : ℕ
  step_ticks : ℚ
  bar : Bar
  ticks : ℚ
  deriving DecidableEq, Repr

/-- The beat-subdivision doubling loop of `Steps::next` (`src/ruler.rs:130-138`):
keep doubling `beat_subdivs` (halving the step) while the next halving stays
strictly above `min_step_ticks`; return the last interval that was kept.
`beat_subdivs` is a `u16` (it comes from `time_sig.bottom / 4`), so
`beat_subdivs * 2` is `u16` arithmetic: in a release build it wraps modulo
`2^16 = 65536`, which the `% 65536` here reproduces.  When the wrap reaches 0
the source's `f32` quotient `ticks_per_beat / 0` is `+∞` (for the positive
`ticks_per_beat` the spec admits), the `<= min_step_ticks` break test fails
forever and the loop never exits, which is `none` here for every fuel (a debug
build instead panics at the overflow, likewise never returning a step).
`fuel` bounds the number of iterations; `none` means the loop did not break
within `fuel` iterations.  Away from the wrap the loop runs with
`subdivs ≥ 1`, so the rational division here agrees with the `f32`
division of the source. -/
def subdivLoop (tpb minStep : ℚ) : ℕ → ℕ → ℚ → Option ℚ
  | 0, _, _ => none
  | fuel + 1, subdivs, st =>
    if subdivs * 2 % 65536 = 0 then none
    else if tpb / ((subdivs * 2 % 65536 : ℕ) : ℚ) ≤ minStep then some st
    else subdivLoop tpb minStep fuel (subdivs * 2 % 65536)
      (tpb / ((subdivs * 2 % 65536 : ℕ) : ℚ))

/-- The per-bar step-interval computation at the top of `Steps::next`
(`src/ruler.rs:125-141`), run whenever `index_in_bar == 0`:
`beat_subdivs = time_sig.bottom / 4` (integer division); the initial step is
`ticks_per_beat / beat_subdivs`; if that is at least `min_step_ticks` the
doubling loop refines it, otherwise the step falls back to the bar length.
When `bottom / 4 = 0` the source `f32` division yields `+∞` (for the positive
`ticks_per_beat` the spec admits), so the initial `step_ticks >= min_step_ticks`
test succeeds and the doubling loop keeps `beat_subdivs = 0`, step `+∞`,
forever: the source never leaves the loop, which is `none` here for any fuel. -/
def barStepTicks (tpb minStep : ℚ) (bar : Bar) (fuel : ℕ) : Option ℚ :=
  if bar.time_sig.bottom / 4 = 0 then none
  else if minStep ≤ tpb / ((bar.time_sig.bottom / 4 : ℕ) : ℚ) then
    subdivLoop tpb minStep fuel (bar.time_sig.bottom / 4)
      (tpb / ((bar.time_sig.bottom / 4 : ℕ) : ℚ))
  else some (bar.stop - bar.start)

/-- Result of one pass through the loop body of `Steps::next`. -/
inductive IterRes where
  /-- `return None` (`src/ruler.rs:146`): the cursor passed `visible_ticks`. -/
  | stop : IterRes
  /-- `return Some(step)` (`src/ruler.rs:162`). -/
  | emit : Step → Steps → IterRes
  /-- `continue 'bars` (`src/ruler.rs:151`): advance to the next bar. -/
  | nextBar : Steps → IterRes
  /-- `continue 'ticks` (`src/ruler.rs:158`): a negative-tick step is skipped. -/
  | skip : Steps → IterRes
  /-- The beat-subdivision loop did not terminate within the given fuel. -/
  | stuck : IterRes
  deriving DecidableEq, Repr

/-- The bar-entry update of `Steps::next` (`src/ruler.rs:125-142`): when
`index_in_bar == 0`, reset the cursor to the bar start and recompute the
step interval; otherwise the state is unchanged. -/
def Steps.refresh (fuel : ℕ) (s : Steps) : Option Steps :=
  if s.index_in_bar = 0 then
    (barStepTicks s.ticks_per_beat s.min_step_ticks s.bar fuel).map fun st =>
      { s with ticks := s.bar.start, step_ticks := st }
  else some s

/-- One pass through the combined `'bars`/`'ticks` loop body of `Steps::next`
(`src/ruler.rs:123-164`).  A `continue 'ticks` always happens with
`index_in_bar ≥ 1` and a `continue 'bars` always resets `index_in_bar` to 0,
so re-running this single body (which refreshes exactly when
`index_in_bar = 0`) reproduces the nested source loops. -/
def Steps.iter (barAt : ℚ → Bar) (fuel : ℕ) (s : Steps) : IterRes :=
  match s.refresh fuel with
  | none => .stuck
  | some s =>
    if s.visible_ticks < s.ticks then .stop
    else if s.bar.stop ≤ s.ticks then
      .nextBar { s with index_in_bar := 0, bar := barAt (s.bar.stop + 1/2) }
    else
      let st : Step :=
        { index_in_bar := s.index_in_bar, ticks := s.ticks,
          x := s.ticks / s.ticks_per_point }
      let s' := { s with index_in_bar := s.index_in_bar + 1,
                         ticks := s.ticks + s.step_ticks }
      if s.ticks < 0 then .skip s' else .emit st s'

/-- `Steps::next` (`src/ruler.rs:122-165`): iterate loop-body passes until a
step is produced (`some (some _)`), the generator is exhausted (`some none`,
the source's `None`), or the fuel runs out (`none`). -/
def Steps.next (barAt : ℚ → Bar) : ℕ → Steps → Option (Option (Step × Steps))
  | 0, _ => none
  | fuel + 1, s =>
    match s.iter barAt fuel with
    | .stop => some none
    | .emit st s' => some (some (st, s'))
    | .nextBar s' => Steps.next barAt fuel s'
    | .skip s' => Steps.next barAt fuel s'
    | .stuck => none

/-- Drive the generator one loop-body pass at a time, collecting the emitted
steps, the number of bar advances (`continue 'bars` events), and whether the
generator finished (the source returned `None`) within the fuel. -/
def Steps.runIter (barAt : ℚ → Bar) : ℕ → Steps → List Step × ℕ × Bool
  | 0, _ => ([], 0, false)
  | fuel + 1, s =>
    match s.iter barAt fuel with
    | .stop => ([], 0, true)
    | .emit st s' =>
      let r := Steps.runIter barAt fuel s'
      (st :: r.1, r.2.1, r.2.2)
    | .nextBar s' =>
      let r := Steps.runIter barAt fuel s'
      (r.1, r.2.1 + 1, r.2.2)
    | .skip s' => Steps.runIter barAt fuel s'
    | .stuck => ([], 0, false)

/-- `Steps::new` (`src/ruler.rs:104-119`). -/
def Steps.new (barAt : ℚ → Bar)
    (ticks_per_beat ticks_per_point visible_len min_step_gap : ℚ) : Steps :=
  { ticks_per_beat := ticks_per_beat
    ticks_per_point := ticks_per_point
    visible_ticks := ticks_per_point * visible_len
    min_step_ticks := ticks_per_point * min_step_gap
    index_in_bar := 0
    step_ticks := 0
    bar := barAt 0
    ticks := 0 }

/-- Tick to pixel offset (`src/ruler.rs:160`: `x = ticks / ticks_per_point`). -/
def tick_to_x (tick z : ℚ) : ℚ := tick / z

/-- Pixel offset to tick (`src/lib.rs:124`: `delta.x * ticks_per_point`). -/
def x_to_tick (x z : ℚ) : ℚ := x * z

/-- Visible tick count (`src/ruler.rs:38`: `w * ticks_per_point`). -/
def visibleTicks (w z : ℚ) : ℚ := w * z

end EguiTimeline

namespace EguiTimeline

/-! ## Host contract and generator invariant -/

/-- The `MusicalInfo::bar_at_ticks` contract assumed by the spec: every query
returns a bar containing the queried tick, bars are non-overlapping (a tick at
or past a bar's end belongs to a bar starting at or past that end), and every
time signature has denominator at least 4. -/
structure HostOk (barAt : ℚ → Bar) : Prop where
  mem_le : ∀ t : ℚ, (barAt t).start ≤ t
  lt_stop : ∀ t : ℚ, t < (barAt t).stop
  sep : ∀ t u : ℚ, (barAt t).stop ≤ u → (barAt t).stop ≤ (barAt u).start
  bottom4 : ∀ t : ℚ, 4 ≤ (barAt t).time_sig.bottom

/-- Invariant on generator states, relative to the host bar lookup: the spec's
stated preconditions on the scalar fields, the current bar is one returned by
the host, and away from a bar entry the cursor sits `index_in_bar` steps into
the bar with a positive step interval that is either at least `min_step_ticks`
or the bar-length fallback. -/
structure Inv (barAt : ℚ → Bar) (s : Steps) : Prop where
  host : HostOk barAt
  tpb_pos : 0 < s.ticks_per_beat
  tpp_pos : 0 < s.ticks_per_point
  min_pos : 0 < s.min_step_ticks
  bar_mem : ∃ u : ℚ, s.bar = barAt u
  idx_inv : s.index_in_bar ≠ 0 →
    s.ticks = s.bar.start + s.index_in_bar * s.step_ticks ∧
    0 < s.step_ticks ∧
    (s.min_step_ticks ≤ s.step_ticks ∨ s.step_ticks = s.bar.stop - s.bar.start)

theorem Inv.bar_lt {barAt : ℚ → Bar} {s : Steps} (h : Inv barAt s) :
    s.bar.start < s.bar.stop := by
  obtain ⟨u, hu⟩ := h.bar_mem
  rw [hu]
  exact lt_of_le_of_lt (h.host.mem_le u) (h.host.lt_stop u)

theorem Inv.bar_bottom {barAt : ℚ → Bar} {s : Steps} (h : Inv barAt s) :
    4 ≤ s.bar.time_sig.bottom := by
  obtain ⟨u, hu⟩ := h.bar_mem
  rw [hu]
  exact h.host.bottom4 u

theorem Inv.subdivs_ne {barAt : ℚ → Bar} {s : Steps} (h : Inv barAt s) :
    s.bar.time_sig.bottom / 4 ≠ 0 := by
  have h4 := h.bar_bottom
  omega

/-! ## Lemmas about the subdivision loop -/

theorem subdivLoop_ge {tpb minStep v : ℚ} :
    ∀ {fuel subdivs : ℕ} {st : ℚ}, minStep ≤ st →
      subdivLoop tpb minStep fuel subdivs st = some v → minStep ≤ v := by
  intro fuel
  induction fuel with
  | zero => intro subdivs st _ hv; simp [subdivLoop] at hv
  | succ f ih =>
    intro subdivs st hst hv
    rw [subdivLoop] at hv
    split_ifs at hv with h0 hle
    · cases hv; exact hst
    · exact ih (le_of_not_le hle) hv

theorem subdivLoop_mono {tpb minStep v : ℚ} :
    ∀ {fuel subdivs : ℕ} {st : ℚ},
      subdivLoop tpb minStep fuel subdivs st = some v →
      subdivLoop tpb minStep (fuel + 1) subdivs st = some v := by
  intro fuel
  induction fuel with
  | zero => intro subdivs st hv; simp [subdivLoop] at hv
  | succ f ih =>
    intro subdivs st hv
    rw [subdivLoop] at hv
    rw [subdivLoop]
    split_ifs at hv with h0 hle
    · rw [if_neg h0, if_pos hle]; exact hv
    · rw [if_neg h0, if_neg hle]; exact ih hv

end EguiTimeline

namespace EguiTimeline

theorem subdivLoop_mono_le {tpb minStep v : ℚ} {fuel fuel' subdivs : ℕ} {st : ℚ}
    (hle : fuel ≤ fuel')
    (hv : subdivLoop tpb minStep fuel subdivs st = some v) :
    subdivLoop tpb minStep fuel' subdivs st = some v := by
  induction fuel' with
  | zero => exact (Nat.le_zero.mp hle) ▸ hv
  | succ f ih =>
    rcases Nat.lt_or_ge fuel (f + 1) with h | h
    · exact subdivLoop_mono (ih (Nat.lt_succ_iff.mp h))
    · exact (Nat.le_antisymm hle h) ▸ hv

theorem subdivLoop_total {tpb minStep : ℚ} (hm : 0 < minStep)
    (hov : tpb ≤ minStep * 32768) :
    ∀ {fuel subdivs : ℕ} {st : ℚ}, 0 < subdivs → subdivs < 32768 →
      tpb ≤ minStep * subdivs * 2 ^ (fuel + 1) →
      ∃ v, subdivLoop tpb minStep (fuel + 1) subdivs st = some v := by
  intro fuel
  induction fuel with
  | zero =>
    intro subdivs st hsd hwrap hb
    rw [subdivLoop]
    have hmod : subdivs * 2 % 65536 = subdivs * 2 := Nat.mod_eq_of_lt (by omega)
    rw [hmod, if_neg (by omega : ¬ subdivs * 2 = 0)]
    split_ifs with hle
    · exact ⟨st, rfl⟩
    · exfalso
      apply hle
      have hpos : (0 : ℚ) < ((subdivs * 2 : ℕ) : ℚ) := by
        exact_mod_cast Nat.mul_pos hsd (by norm_num)
      rw [div_le_iff₀ hpos]
      push_cast
      calc tpb ≤ minStep * (subdivs : ℚ) * 2 ^ (0 + 1) := hb
        _ = minStep * ((subdivs : ℚ) * 2) := by ring
  | succ f ih =>
    intro subdivs st hsd hwrap hb
    rw [subdivLoop]
    have hmod : subdivs * 2 % 65536 = subdivs * 2 := Nat.mod_eq_of_lt (by omega)
    rw [hmod, if_neg (by omega : ¬ subdivs * 2 = 0)]
    split_ifs with hle
    · exact ⟨st, rfl⟩
    · have hpos : (0 : ℚ) < ((subdivs * 2 : ℕ) : ℚ) := by
        exact_mod_cast Nat.mul_pos hsd (by norm_num)
      have hwrap2 : subdivs * 2 < 32768 := by
        by_contra hge
        push_neg at hge
        apply hle
        have h1 : (32768 : ℚ) ≤ ((subdivs * 2 : ℕ) : ℚ) := by exact_mod_cast hge
        rw [div_le_iff₀ hpos]
        calc tpb ≤ minStep * 32768 := hov
          _ ≤ minStep * ((subdivs * 2 : ℕ) : ℚ) :=
            mul_le_mul_of_nonneg_left h1 hm.le
      apply ih (by omega) hwrap2
      push_cast
      calc tpb ≤ minStep * (subdivs : ℚ) * 2 ^ (f + 1 + 1) := hb
        _ = minStep * ((subdivs : ℚ) * 2) * 2 ^ (f + 1) := by ring

theorem barStepTicks_mono {tpb minStep v : ℚ} {bar : Bar} {fuel : ℕ}
    (hv : barStepTicks tpb minStep bar fuel = some v) :
    barStepTicks tpb minStep bar (fuel + 1) = some v := by
  unfold barStepTicks at hv ⊢
  split_ifs at hv ⊢ with h0 h1
  · exact subdivLoop_mono hv
  · exact hv

theorem barStepTicks_mono_le {tpb minStep v : ℚ} {bar : Bar} {fuel fuel' : ℕ}
    (hle : fuel ≤ fuel')
    (hv : barStepTicks tpb minStep bar fuel = some v) :
    barStepTicks tpb minStep bar fuel' = some v := by
  induction fuel' with
  | zero => exact (Nat.le_zero.mp hle) ▸ hv
  | succ f ih =>
    rcases Nat.lt_or_ge fuel (f + 1) with h | h
    · exact barStepTicks_mono (ih (Nat.lt_succ_iff.mp h))
    · exact (Nat.le_antisymm hle h) ▸ hv

theorem barStepTicks_stable {tpb minStep v v' : ℚ} {bar : Bar} {fuel fuel' : ℕ}
    (hv : barStepTicks tpb minStep bar fuel = some v)
    (hv' : barStepTicks tpb minStep bar fuel' = some v') : v = v' := by
  have h1 := barStepTicks_mono_le (Nat.le_max_left fuel fuel') hv
  have h2 := barStepTicks_mono_le (Nat.le_max_right fuel fuel') hv'
  rw [h1] at h2
  exact (Option.some_inj.mp h2)

/-- The selected step interval is positive, and is either at least
`min_step_ticks` (the doubling-loop branch) or exactly the bar length
(the fallback branch). -/
theorem barStepTicks_spec {tpb minStep v : ℚ} {bar : Bar} {fuel : ℕ}
    (hm : 0 < minStep) (hbar : bar.start < bar.stop)
    (hv : barStepTicks tpb minStep bar fuel = some v) :
    0 < v ∧ (minStep ≤ v ∨ v = bar.stop - bar.start) := by
  unfold barStepTicks at hv
  split_ifs at hv with h0 h1
  · have hge := subdivLoop_ge h1 hv
    exact ⟨lt_of_lt_of_le hm hge, Or.inl hge⟩
  · cases hv
    exact ⟨by linarith, Or.inr rfl⟩

/-- Fuel that provably suffices for the subdivision loop. -/
def canonFuel (tpb minStep : ℚ) (subdivs : ℕ) : ℕ :=
  ⌈tpb / (minStep * subdivs)⌉₊ + 1

/-- The step interval `barStepTicks` stabilises to, evaluated at a provably
sufficient fuel. -/
def canonStep (tpb minStep : ℚ) (bar : Bar) : ℚ :=
  (barStepTicks tpb minStep bar
    (canonFuel tpb minStep (bar.time_sig.bottom / 4))).getD 1

theorem barStepTicks_total {tpb minStep : ℚ} {bar : Bar}
    (hm : 0 < minStep) (hsd : bar.time_sig.bottom / 4 ≠ 0)
    (hov : tpb ≤ minStep * 32768) (hbot : bar.time_sig.bottom < 65536) :
    barStepTicks tpb minStep bar
      (canonFuel tpb minStep (bar.time_sig.bottom / 4)) =
      some (canonStep tpb minStep bar) := by
  have hsd' : 0 < bar.time_sig.bottom / 4 := Nat.pos_of_ne_zero hsd
  suffices h : ∃ v, barStepTicks tpb minStep bar
      (canonFuel tpb minStep (bar.time_sig.bottom / 4)) = some v by
    obtain ⟨v, hv⟩ := h
    rw [hv, canonStep, hv]
    rfl
  unfold barStepTicks
  rw [if_neg hsd]
  split_ifs with h1
  · apply subdivLoop_total hm hov hsd' (by omega)
    set sd := bar.time_sig.bottom / 4 with hsdd
    set q : ℚ := tpb / (minStep * sd) with hq
    have hms : (0 : ℚ) < minStep * sd := by positivity
    have h2 : q ≤ (⌈q⌉₊ : ℚ) := Nat.le_ceil q
    have h3 : (⌈q⌉₊ : ℚ) + 1 ≤ (2 : ℚ) ^ (⌈q⌉₊ + 1) := by
      have h4 : (⌈q⌉₊ : ℚ) + 1 ≤ ((2 ^ (⌈q⌉₊) : ℕ) : ℚ) := by
        exact_mod_cast Nat.lt_two_pow (⌈q⌉₊)
      have h5 : ((2 ^ (⌈q⌉₊) : ℕ) : ℚ) ≤ (2 : ℚ) ^ (⌈q⌉₊ + 1) := by
        push_cast
        apply pow_le_pow_right₀ (by norm_num)
        omega
      linarith
    have h5 : q < (2 : ℚ) ^ (⌈q⌉₊ + 1) := by linarith
    have htpb : q * (minStep * (sd : ℚ)) = tpb := by
      rw [hq]; field_simp
    calc tpb = q * (minStep * (sd : ℚ)) := htpb.symm
      _ ≤ (2 : ℚ) ^ (⌈q⌉₊ + 1) * (minStep * (sd : ℚ)) :=
        mul_le_mul_of_nonneg_right h5.le hms.le
      _ = minStep * (sd : ℚ) * (2 : ℚ) ^ (⌈q⌉₊ + 1) := by ring
  · exact ⟨bar.stop - bar.start, rfl⟩

theorem canonStep_eq {tpb minStep v : ℚ} {bar : Bar} {fuel : ℕ}
    (hm : 0 < minStep)
    (hov : tpb ≤ minStep * 32768) (hbot : bar.time_sig.bottom < 65536)
    (hv : barStepTicks tpb minStep bar fuel = some v) :
    canonStep tpb minStep bar = v := by
  have hsd : bar.time_sig.bottom / 4 ≠ 0 := by
    intro h
    unfold barStepTicks at hv
    rw [if_pos h] at hv
    exact Option.noConfusion hv
  exact (barStepTicks_stable (barStepTicks_total hm hsd hov hbot) hv)

end EguiTimeline

namespace EguiTimeline

/-! ## Inversion lemmas for the loop body -/

theorem refresh_statics {fuel : ℕ} {s t : Steps} (h : s.refresh fuel = some t) :
    t.ticks_per_beat = s.ticks_per_beat ∧ t.ticks_per_point = s.ticks_per_point ∧
    t.visible_ticks = s.visible_ticks ∧ t.min_step_ticks = s.min_step_ticks ∧
    t.bar = s.bar ∧ t.index_in_bar = s.index_in_bar := by
  unfold Steps.refresh at h
  split_ifs at h with h0
  · rw [Option.map_eq_some'] at h
    obtain ⟨v, _, ht⟩ := h
    subst ht
    exact ⟨rfl, rfl, rfl, rfl, rfl, rfl⟩
  · rw [Option.some_inj] at h
    subst h
    exact ⟨rfl, rfl, rfl, rfl, rfl, rfl⟩

theorem refresh_zero {fuel : ℕ} {s t : Steps} (h0 : s.index_in_bar = 0)
    (h : s.refresh fuel = some t) :
    t.ticks = s.bar.start ∧
    barStepTicks s.ticks_per_beat s.min_step_ticks s.bar fuel = some t.step_ticks := by
  unfold Steps.refresh at h
  rw [if_pos h0, Option.map_eq_some'] at h
  obtain ⟨v, hv, ht⟩ := h
  subst ht
  exact ⟨rfl, hv⟩

theorem refresh_pos {fuel : ℕ} {s t : Steps} (h0 : s.index_in_bar ≠ 0)
    (h : s.refresh fuel = some t) : t = s := by
  unfold Steps.refresh at h
  rw [if_neg h0, Option.some_inj] at h
  exact h.symm

/-- The refreshed state satisfies the in-bar position law even at a bar entry. -/
theorem refresh_inv {barAt : ℚ → Bar} {fuel : ℕ} {s t : Steps}
    (hI : Inv barAt s) (h : s.refresh fuel = some t) :
    Inv barAt t ∧
    t.ticks = t.bar.start + t.index_in_bar * t.step_ticks ∧
    0 < t.step_ticks ∧
    (t.min_step_ticks ≤ t.step_ticks ∨ t.step_ticks = t.bar.stop - t.bar.start) := by
  obtain ⟨htpb, htpp, hvis, hmin, hbar, hidx⟩ := refresh_statics h
  by_cases h0 : s.index_in_bar = 0
  · obtain ⟨hticks, hstep⟩ := refresh_zero h0 h
    obtain ⟨hpos, hge⟩ := barStepTicks_spec hI.min_pos hI.bar_lt hstep
    have hfacts : t.ticks = t.bar.start + t.index_in_bar * t.step_ticks ∧
        0 < t.step_ticks ∧
        (t.min_step_ticks ≤ t.step_ticks ∨ t.step_ticks = t.bar.stop - t.bar.start) := by
      refine ⟨?_, hpos, ?_⟩
      · rw [hticks, hbar, hidx, h0]
        push_cast
        ring
      · rw [hmin, hbar]
        exact hge
    refine ⟨?_, hfacts⟩
    exact { host := hI.host
            tpb_pos := htpb ▸ hI.tpb_pos
            tpp_pos := htpp ▸ hI.tpp_pos
            min_pos := hmin ▸ hI.min_pos
            bar_mem := hbar ▸ hI.bar_mem
            idx_inv := fun _ => hfacts }
  · have ht : t = s := refresh_pos h0 h
    subst ht
    exact ⟨hI, (hI.idx_inv h0).1, (hI.idx_inv h0).2.1, (hI.idx_inv h0).2.2⟩

/-- Everything a single emitted step guarantees about the pre- and post-state. -/
structure EmitOut (barAt : ℚ → Bar) (fuel : ℕ) (s : Steps) (st : Step) (s' : Steps) :
    Prop where
  inv' : Inv barAt s'
  stat_tpb : s'.ticks_per_beat = s.ticks_per_beat
  stat_tpp : s'.ticks_per_point = s.ticks_per_point
  stat_vis : s'.visible_ticks = s.visible_ticks
  stat_min : s'.min_step_ticks = s.min_step_ticks
  bar_eq : s'.bar = s.bar
  idx_eq : s'.index_in_bar = s.index_in_bar + 1
  st_idx : st.index_in_bar = s.index_in_bar
  st_nonneg : 0 ≤ st.ticks
  st_le_vis : st.ticks ≤ s.visible_ticks
  st_lt_stop : st.ticks < s.bar.stop
  st_x : st.x = st.ticks / s.ticks_per_point
  cursor : s'.ticks = st.ticks + s'.step_ticks
  pos_eq : st.ticks = s.bar.start + s.index_in_bar * s'.step_ticks
  step_pos : 0 < s'.step_ticks
  step_ge : s.min_step_ticks ≤ s'.step_ticks ∨ s'.step_ticks = s.bar.stop - s.bar.start
  step_src : s.index_in_bar = 0 →
    barStepTicks s.ticks_per_beat s.min_step_ticks s.bar fuel = some s'.step_ticks ∧
    st.ticks = s.bar.start
  step_keep : s.index_in_bar ≠ 0 → s'.step_ticks = s.step_ticks ∧ st.ticks = s.ticks

theorem iter_of_refresh {barAt : ℚ → Bar} {fuel : ℕ} {s t : Steps}
    (hrf : s.refresh fuel = some t) :
    s.iter barAt fuel =
      (if t.visible_ticks < t.ticks then .stop
      else if t.bar.stop ≤ t.ticks then
        .nextBar { t with index_in_bar := 0, bar := barAt (t.bar.stop + 1/2) }
      else if t.ticks < 0 then
        .skip { t with index_in_bar := t.index_in_bar + 1,
                       ticks := t.ticks + t.step_ticks }
      else
        .emit { index_in_bar := t.index_in_bar, ticks := t.ticks,
                x := t.ticks / t.ticks_per_point }
          { t with index_in_bar := t.index_in_bar + 1,
                   ticks := t.ticks + t.step_ticks }) := by
  unfold Steps.iter
  rw [hrf]

theorem iter_stuck_iff {barAt : ℚ → Bar} {fuel : ℕ} {s : Steps} :
    s.iter barAt fuel = .stuck ↔ s.refresh fuel = none := by
  constructor
  · intro e
    cases hrf : s.refresh fuel with
    | none => rfl
    | some t =>
      rw [iter_of_refresh hrf] at e
      split_ifs at e
  · intro hrf
    unfold Steps.iter
    rw [hrf]

theorem iter_emit {barAt : ℚ → Bar} {fuel : ℕ} {s : Steps} {st : Step} {s' : Steps}
    (hI : Inv barAt s) (e : s.iter barAt fuel = .emit st s') :
    EmitOut barAt fuel s st s' := by
  cases hrf : s.refresh fuel with
  | none => rw [iter_stuck_iff.mpr hrf] at e; exact absurd e (by simp)
  | some t =>
    rw [iter_of_refresh hrf] at e
    obtain ⟨htpb, htpp, hvis, hmin, hbar, hidx⟩ := refresh_statics hrf
    obtain ⟨hIt, hpost, hpos, hge⟩ := refresh_inv hI hrf
    split_ifs at e with hvlt hstop hneg
    case _ =>
      simp only [IterRes.emit.injEq] at e
      obtain ⟨hst, hs'⟩ := e
      subst hst
      subst hs'
      have hIt' : Inv barAt { t with index_in_bar := t.index_in_bar + 1, ticks := t.ticks + t.step_ticks } := by
        refine { host := hIt.host
                 tpb_pos := hIt.tpb_pos
                 tpp_pos := hIt.tpp_pos
                 min_pos := hIt.min_pos
                 bar_mem := hIt.bar_mem
                 idx_inv := ?_ }
        intro _
        refine ⟨?_, hpos, hge⟩
        show t.ticks + t.step_ticks =
          t.bar.start + ((t.index_in_bar + 1 : ℕ) : ℚ) * t.step_ticks
        rw [hpost]
        push_cast
        ring
      have hx : t.ticks / t.ticks_per_point = t.ticks / s.ticks_per_point := by
        rw [htpp]
      have hposeq : t.ticks = s.bar.start + s.index_in_bar * t.step_ticks := by
        rw [← hbar, ← hidx]; exact hpost
      have hgs : s.min_step_ticks ≤ t.step_ticks ∨
          t.step_ticks = s.bar.stop - s.bar.start := by
        rw [← hmin, ← hbar]; exact hge
      have hsrc : s.index_in_bar = 0 →
          barStepTicks s.ticks_per_beat s.min_step_ticks s.bar fuel =
            some t.step_ticks ∧ t.ticks = s.bar.start := by
        intro h0
        obtain ⟨hticks, hbst⟩ := refresh_zero h0 hrf
        exact ⟨hbst, hticks⟩
      have hkeep : s.index_in_bar ≠ 0 →
          t.step_ticks = s.step_ticks ∧ t.ticks = s.ticks := by
        intro h0
        have ht : t = s := refresh_pos h0 hrf
        rw [ht]
        exact ⟨rfl, rfl⟩
      exact { inv' := hIt'
              stat_tpb := htpb
              stat_tpp := htpp
              stat_vis := hvis
              stat_min := hmin
              bar_eq := hbar
              idx_eq := by simpa using hidx
              st_idx := hidx
              st_nonneg := not_lt.mp hneg
              st_le_vis := hvis ▸ not_lt.mp hvlt
              st_lt_stop := hbar ▸ not_le.mp hstop
              st_x := hx
              cursor := rfl
              pos_eq := hposeq
              step_pos := hpos
              step_ge := hgs
              step_src := hsrc
              step_keep := hkeep }

end EguiTimeline

namespace EguiTimeline

/-- Facts guaranteed by a negative-tick skip (`continue 'ticks`). -/
structure SkipOut (barAt : ℚ → Bar) (fuel : ℕ) (s s' : Steps) : Prop where
  inv' : Inv barAt s'
  stat_tpb : s'.ticks_per_beat = s.ticks_per_beat
  stat_tpp : s'.ticks_per_point = s.ticks_per_point
  stat_vis : s'.visible_ticks = s.visible_ticks
  stat_min : s'.min_step_ticks = s.min_step_ticks
  bar_eq : s'.bar = s.bar
  idx_eq : s'.index_in_bar = s.index_in_bar + 1
  step_pos : 0 < s'.step_ticks
  step_ge : s.min_step_ticks ≤ s'.step_ticks ∨ s'.step_ticks = s.bar.stop - s.bar.start
  cap_neg : s'.ticks - s'.step_ticks < 0
  cap_lt_stop : s'.ticks - s'.step_ticks < s.bar.stop
  pos_eq : s'.ticks = s.bar.start + s'.index_in_bar * s'.step_ticks
  step_src : s.index_in_bar = 0 →
    barStepTicks s.ticks_per_beat s.min_step_ticks s.bar fuel = some s'.step_ticks
  step_keep : s.index_in_bar ≠ 0 →
    s'.step_ticks = s.step_ticks ∧ s'.ticks = s.ticks + s.step_ticks

theorem iter_skip {barAt : ℚ → Bar} {fuel : ℕ} {s s' : Steps}
    (hI : Inv barAt s) (e : s.iter barAt fuel = .skip s') :
    SkipOut barAt fuel s s' := by
  cases hrf : s.refresh fuel with
  | none => rw [iter_stuck_iff.mpr hrf] at e; exact absurd e (by simp)
  | some t =>
    rw [iter_of_refresh hrf] at e
    obtain ⟨htpb, htpp, hvis, hmin, hbar, hidx⟩ := refresh_statics hrf
    obtain ⟨hIt, hpost, hpos, hge⟩ := refresh_inv hI hrf
    split_ifs at e with hvlt hstop hneg
    case _ =>
      simp only [IterRes.skip.injEq] at e
      subst e
      have hIt' : Inv barAt { t with index_in_bar := t.index_in_bar + 1, ticks := t.ticks + t.step_ticks } := by
        refine { host := hIt.host
                 tpb_pos := hIt.tpb_pos
                 tpp_pos := hIt.tpp_pos
                 min_pos := hIt.min_pos
                 bar_mem := hIt.bar_mem
                 idx_inv := ?_ }
        intro _
        refine ⟨?_, hpos, hge⟩
        show t.ticks + t.step_ticks =
          t.bar.start + ((t.index_in_bar + 1 : ℕ) : ℚ) * t.step_ticks
        rw [hpost]
        push_cast
        ring
      have hcap : t.ticks + t.step_ticks - t.step_ticks = t.ticks := by ring
      have hposeq : t.ticks + t.step_ticks =
          s.bar.start + ((t.index_in_bar + 1 : ℕ) : ℚ) * t.step_ticks := by
        rw [← hbar, hpost]
        push_cast
        ring
      have hsrc : s.index_in_bar = 0 →
          barStepTicks s.ticks_per_beat s.min_step_ticks s.bar fuel =
            some t.step_ticks :=
        fun h0 => (refresh_zero h0 hrf).2
      have hkeep : s.index_in_bar ≠ 0 →
          t.step_ticks = s.step_ticks ∧ t.ticks + t.step_ticks = s.ticks + s.step_ticks := by
        intro h0
        have ht : t = s := refresh_pos h0 hrf
        rw [ht]
        exact ⟨rfl, rfl⟩
      exact { inv' := hIt'
              stat_tpb := htpb
              stat_tpp := htpp
              stat_vis := hvis
              stat_min := hmin
              bar_eq := hbar
              idx_eq := by simpa using hidx
              step_pos := hpos
              step_ge := by rw [← hmin, ← hbar]; exact hge
              cap_neg := by rw [hcap]; exact hneg
              cap_lt_stop := by rw [hcap, ← hbar]; exact not_le.mp hstop
              pos_eq := hposeq
              step_src := hsrc
              step_keep := hkeep }

/-- Facts guaranteed by a bar advance (`continue 'bars`). -/
structure BarOut (barAt : ℚ → Bar) (s s' : Steps) : Prop where
  inv' : Inv barAt s'
  stat_tpb : s'.ticks_per_beat = s.ticks_per_beat
  stat_tpp : s'.ticks_per_point = s.ticks_per_point
  stat_vis : s'.visible_ticks = s.visible_ticks
  stat_min : s'.min_step_ticks = s.min_step_ticks
  idx0 : s'.index_in_bar = 0
  bar_def : s'.bar = barAt (s.bar.stop + 1/2)
  sep_ge : s.bar.stop ≤ s'.bar.start
  start_le : s'.bar.start ≤ s.bar.stop + 1/2
  stop_gt : s.bar.stop + 1/2 < s'.bar.stop
  pre_idx : s.index_in_bar ≠ 0
  pre_ge : s.bar.stop ≤ s.ticks
  pre_le_vis : s.ticks ≤ s.visible_ticks
  ticks_keep : s'.ticks = s.ticks

theorem iter_nextBar {barAt : ℚ → Bar} {fuel : ℕ} {s s' : Steps}
    (hI : Inv barAt s) (e : s.iter barAt fuel = .nextBar s') :
    BarOut barAt s s' := by
  cases hrf : s.refresh fuel with
  | none => rw [iter_stuck_iff.mpr hrf] at e; exact absurd e (by simp)
  | some t =>
    rw [iter_of_refresh hrf] at e
    obtain ⟨htpb, htpp, hvis, hmin, hbar, hidx⟩ := refresh_statics hrf
    obtain ⟨hIt, hpost, hpos, hge⟩ := refresh_inv hI hrf
    split_ifs at e with hvlt hstop
    case _ =>
      simp only [IterRes.nextBar.injEq] at e
      subst e
      have hpre : s.index_in_bar ≠ 0 := by
        intro h0
        obtain ⟨hticks, _⟩ := refresh_zero h0 hrf
        rw [hticks, hbar] at hstop
        exact absurd (lt_of_le_of_lt hstop hI.bar_lt) (lt_irrefl _)
      have hts : t = s := refresh_pos hpre hrf
      subst hts
      obtain ⟨u, hu⟩ := hI.bar_mem
      have hsep : t.bar.stop ≤ (barAt (t.bar.stop + 1/2)).start := by
        have h1 : (barAt u).stop ≤ (barAt ((barAt u).stop + 1/2)).start :=
          hI.host.sep u ((barAt u).stop + 1/2) (by linarith)
        rw [← hu] at h1
        exact h1
      have hIt' : Inv barAt { t with index_in_bar := 0, bar := barAt (t.bar.stop + 1/2) } := by
        exact { host := hI.host
                tpb_pos := hI.tpb_pos
                tpp_pos := hI.tpp_pos
                min_pos := hI.min_pos
                bar_mem := ⟨t.bar.stop + 1/2, rfl⟩
                idx_inv := fun h => absurd rfl h }
      exact { inv' := hIt'
              stat_tpb := rfl
              stat_tpp := rfl
              stat_vis := rfl
              stat_min := rfl
              idx0 := rfl
              bar_def := rfl
              sep_ge := hsep
              start_le := hI.host.mem_le (t.bar.stop + 1/2)
              stop_gt := hI.host.lt_stop (t.bar.stop + 1/2)
              pre_idx := hpre
              pre_ge := hstop
              pre_le_vis := not_lt.mp hvlt
              ticks_keep := rfl }

end EguiTimeline

namespace EguiTimeline

/-! ## Lower bound on future emissions -/

/-- A lower bound on the tick of every step the generator can still emit from
state `s`: the bar start at a bar entry, otherwise the cursor capped by the
current bar's end (a later bar can only start at or after that end). -/
def lowb (s : Steps) : ℚ :=
  if s.index_in_bar = 0 then s.bar.start else min s.ticks s.bar.stop

theorem EmitOut.lowb_eq {barAt : ℚ → Bar} {fuel : ℕ} {s : Steps} {st : Step}
    {s' : Steps} (ho : EmitOut barAt fuel s st s') : lowb s = st.ticks := by
  by_cases h0 : s.index_in_bar = 0
  · rw [lowb, if_pos h0]
    exact ((ho.step_src h0).2).symm
  · rw [lowb, if_neg h0]
    obtain ⟨_, hticks⟩ := ho.step_keep h0
    rw [← hticks]
    exact min_eq_left ho.st_lt_stop.le

theorem EmitOut.lowb_lt {barAt : ℚ → Bar} {fuel : ℕ} {s : Steps} {st : Step}
    {s' : Steps} (ho : EmitOut barAt fuel s st s') : st.ticks < lowb s' := by
  have h1 : s'.index_in_bar ≠ 0 := by rw [ho.idx_eq]; omega
  rw [lowb, if_neg h1]
  apply lt_min
  · rw [ho.cursor]; linarith [ho.step_pos]
  · rw [ho.bar_eq]; exact ho.st_lt_stop

theorem SkipOut.lowb_le {barAt : ℚ → Bar} {fuel : ℕ} {s s' : Steps}
    (ho : SkipOut barAt fuel s s') : lowb s ≤ lowb s' := by
  have h1 : s'.index_in_bar ≠ 0 := by rw [ho.idx_eq]; omega
  have hlt : s.bar.start < s.bar.stop := by
    have := ho.inv'.bar_lt
    rwa [ho.bar_eq] at this
  have hrhs : lowb s' = min s'.ticks s.bar.stop := by
    rw [lowb, if_neg h1, ho.bar_eq]
  rw [hrhs]
  by_cases h0 : s.index_in_bar = 0
  · rw [lowb, if_pos h0]
    apply le_min
    · rw [ho.pos_eq, ho.idx_eq, h0]
      push_cast
      linarith [ho.step_pos]
    · exact hlt.le
  · rw [lowb, if_neg h0]
    obtain ⟨hstep, hticks⟩ := ho.step_keep h0
    apply le_min
    · have h2 : 0 < s.step_ticks := by rw [← hstep]; exact ho.step_pos
      calc min s.ticks s.bar.stop ≤ s.ticks := min_le_left _ _
        _ ≤ s'.ticks := by rw [hticks]; linarith
    · exact min_le_right _ _

theorem BarOut.lowb_adv {barAt : ℚ → Bar} {s s' : Steps}
    (ho : BarOut barAt s s') : lowb s ≤ lowb s' := by
  rw [lowb, if_neg ho.pre_idx, lowb, if_pos ho.idx0]
  calc min s.ticks s.bar.stop ≤ s.bar.stop := min_le_right _ _
    _ ≤ s'.bar.start := ho.sep_ge

/-! ## Equation lemmas for the drivers -/

theorem runIter_zero {barAt : ℚ → Bar} {s : Steps} :
    Steps.runIter barAt 0 s = ([], 0, false) := rfl

theorem runIter_stop {barAt : ℚ → Bar} {fuel : ℕ} {s : Steps}
    (h : s.iter barAt fuel = .stop) :
    Steps.runIter barAt (fuel + 1) s = ([], 0, true) := by
  simp only [Steps.runIter, h]

theorem runIter_stuck {barAt : ℚ → Bar} {fuel : ℕ} {s : Steps}
    (h : s.iter barAt fuel = .stuck) :
    Steps.runIter barAt (fuel + 1) s = ([], 0, false) := by
  simp only [Steps.runIter, h]

theorem runIter_emit {barAt : ℚ → Bar} {fuel : ℕ} {s s' : Steps} {st : Step}
    (h : s.iter barAt fuel = .emit st s') :
    Steps.runIter barAt (fuel + 1) s =
      (st :: (Steps.runIter barAt fuel s').1,
       (Steps.runIter barAt fuel s').2.1, (Steps.runIter barAt fuel s').2.2) := by
  simp only [Steps.runIter, h]

theorem runIter_nextBar {barAt : ℚ → Bar} {fuel : ℕ} {s s' : Steps}
    (h : s.iter barAt fuel = .nextBar s') :
    Steps.runIter barAt (fuel + 1) s =
      ((Steps.runIter barAt fuel s').1,
       (Steps.runIter barAt fuel s').2.1 + 1, (Steps.runIter barAt fuel s').2.2) := by
  simp only [Steps.runIter, h]

theorem runIter_skip {barAt : ℚ → Bar} {fuel : ℕ} {s s' : Steps}
    (h : s.iter barAt fuel = .skip s') :
    Steps.runIter barAt (fuel + 1) s = Steps.runIter barAt fuel s' := by
  simp only [Steps.runIter, h]

theorem next_zero {barAt : ℚ → Bar} {s : Steps} :
    Steps.next barAt 0 s = none := rfl

theorem next_stop {barAt : ℚ → Bar} {fuel : ℕ} {s : Steps}
    (h : s.iter barAt fuel = .stop) :
    Steps.next barAt (fuel + 1) s = some none := by
  simp only [Steps.next, h]

theorem next_stuck {barAt : ℚ → Bar} {fuel : ℕ} {s : Steps}
    (h : s.iter barAt fuel = .stuck) :
    Steps.next barAt (fuel + 1) s = none := by
  simp only [Steps.next, h]

theorem next_emit_eq {barAt : ℚ → Bar} {fuel : ℕ} {s s' : Steps} {st : Step}
    (h : s.iter barAt fuel = .emit st s') :
    Steps.next barAt (fuel + 1) s = some (some (st, s')) := by
  simp only [Steps.next, h]

theorem next_nextBar {barAt : ℚ → Bar} {fuel : ℕ} {s s' : Steps}
    (h : s.iter barAt fuel = .nextBar s') :
    Steps.next barAt (fuel + 1) s = Steps.next barAt fuel s' := by
  simp only [Steps.next, h]

theorem next_skip {barAt : ℚ → Bar} {fuel : ℕ} {s s' : Steps}
    (h : s.iter barAt fuel = .skip s') :
    Steps.next barAt (fuel + 1) s = Steps.next barAt fuel s' := by
  simp only [Steps.next, h]

end EguiTimeline

namespace EguiTimeline

/-! ## Run-level invariants -/

theorem runIter_lb {barAt : ℚ → Bar} :
    ∀ {fuel : ℕ} {s : Steps}, Inv barAt s →
      ∀ st ∈ (Steps.runIter barAt fuel s).1, lowb s ≤ st.ticks := by
  intro fuel
  induction fuel with
  | zero =>
    intro s _ st hst
    rw [runIter_zero] at hst
    simp at hst
  | succ f ih =>
    intro s hI st hst
    cases h : s.iter barAt f with
    | stop => rw [runIter_stop h] at hst; simp at hst
    | stuck => rw [runIter_stuck h] at hst; simp at hst
    | emit st0 s1 =>
      have ho := iter_emit hI h
      rw [runIter_emit h] at hst
      rcases List.mem_cons.mp hst with rfl | hst
      · exact ho.lowb_eq.le
      · calc lowb s = st0.ticks := ho.lowb_eq
          _ ≤ lowb s1 := ho.lowb_lt.le
          _ ≤ st.ticks := ih ho.inv' st hst
    | nextBar s1 =>
      have ho := iter_nextBar hI h
      rw [runIter_nextBar h] at hst
      exact le_trans ho.lowb_adv (ih ho.inv' st hst)
    | skip s1 =>
      have ho := iter_skip hI h
      rw [runIter_skip h] at hst
      exact le_trans ho.lowb_le (ih ho.inv' st hst)

theorem runIter_sorted {barAt : ℚ → Bar} :
    ∀ {fuel : ℕ} {s : Steps}, Inv barAt s →
      List.Pairwise (fun a b : Step => a.ticks < b.ticks)
        (Steps.runIter barAt fuel s).1 := by
  intro fuel
  induction fuel with
  | zero =>
    intro s _
    rw [runIter_zero]
    exact List.Pairwise.nil
  | succ f ih =>
    intro s hI
    cases h : s.iter barAt f with
    | stop => rw [runIter_stop h]; exact List.Pairwise.nil
    | stuck => rw [runIter_stuck h]; exact List.Pairwise.nil
    | emit st0 s1 =>
      have ho := iter_emit hI h
      rw [runIter_emit h]
      refine List.Pairwise.cons ?_ (ih ho.inv')
      intro b hb
      calc st0.ticks < lowb s1 := ho.lowb_lt
        _ ≤ b.ticks := runIter_lb ho.inv' b hb
    | nextBar s1 =>
      have ho := iter_nextBar hI h
      rw [runIter_nextBar h]
      exact ih ho.inv'
    | skip s1 =>
      have ho := iter_skip hI h
      rw [runIter_skip h]
      exact ih ho.inv'

/-- Every emitted step has a nonnegative tick, is inside the visible range,
and its pixel offset is `ticks / ticks_per_point`. -/
theorem runIter_bounds {barAt : ℚ → Bar} :
    ∀ {fuel : ℕ} {s : Steps}, Inv barAt s →
      ∀ st ∈ (Steps.runIter barAt fuel s).1,
        0 ≤ st.ticks ∧ st.ticks ≤ s.visible_ticks ∧
        st.x = st.ticks / s.ticks_per_point := by
  intro fuel
  induction fuel with
  | zero =>
    intro s _ st hst
    rw [runIter_zero] at hst
    simp at hst
  | succ f ih =>
    intro s hI st hst
    cases h : s.iter barAt f with
    | stop => rw [runIter_stop h] at hst; simp at hst
    | stuck => rw [runIter_stuck h] at hst; simp at hst
    | emit st0 s1 =>
      have ho := iter_emit hI h
      rw [runIter_emit h] at hst
      rcases List.mem_cons.mp hst with rfl | hst
      · exact ⟨ho.st_nonneg, ho.st_le_vis, ho.st_x⟩
      · obtain ⟨h1, h2, h3⟩ := ih ho.inv' st hst
        exact ⟨h1, by rw [← ho.stat_vis]; exact h2, by rw [← ho.stat_tpp]; exact h3⟩
    | nextBar s1 =>
      have ho := iter_nextBar hI h
      rw [runIter_nextBar h] at hst
      obtain ⟨h1, h2, h3⟩ := ih ho.inv' st hst
      exact ⟨h1, by rw [← ho.stat_vis]; exact h2, by rw [← ho.stat_tpp]; exact h3⟩
    | skip s1 =>
      have ho := iter_skip hI h
      rw [runIter_skip h] at hst
      obtain ⟨h1, h2, h3⟩ := ih ho.inv' st hst
      exact ⟨h1, by rw [← ho.stat_vis]; exact h2, by rw [← ho.stat_tpp]; exact h3⟩

end EguiTimeline

namespace EguiTimeline

/-! ## Facts about a single `Steps::next` emission -/

/-- Facts guaranteed whenever `Steps::next` returns a step: the post-state
`s'` holds the bar the step lies in and the step interval in force when it
was emitted. -/
structure NextOut (barAt : ℚ → Bar) (s : Steps) (st : Step) (s' : Steps) :
    Prop where
  inv' : Inv barAt s'
  stat_tpb : s'.ticks_per_beat = s.ticks_per_beat
  stat_tpp : s'.ticks_per_point = s.ticks_per_point
  stat_vis : s'.visible_ticks = s.visible_ticks
  stat_min : s'.min_step_ticks = s.min_step_ticks
  bar_start_mono : s.bar.start ≤ s'.bar.start
  idx_succ : s'.index_in_bar = st.index_in_bar + 1
  st_nonneg : 0 ≤ st.ticks
  st_le_vis : st.ticks ≤ s.visible_ticks
  st_lt_stop : st.ticks < s'.bar.stop
  st_x : st.x = st.ticks / s.ticks_per_point
  cursor : s'.ticks = st.ticks + s'.step_ticks
  pos_eq : st.ticks = s'.bar.start + st.index_in_bar * s'.step_ticks
  step_pos : 0 < s'.step_ticks
  step_ge : s.min_step_ticks ≤ s'.step_ticks ∨
    s'.step_ticks = s'.bar.stop - s'.bar.start
  boundary_iff : st.index_in_bar = 0 ↔ st.ticks = s'.bar.start
  boundary_src : st.index_in_bar = 0 →
    ∃ f, barStepTicks s.ticks_per_beat s.min_step_ticks s'.bar f =
      some s'.step_ticks
  lowb_le : lowb s ≤ st.ticks
  lowb_lt : st.ticks < lowb s'

theorem next_emit_out {barAt : ℚ → Bar} :
    ∀ {fuel : ℕ} {s : Steps} {st : Step} {s' : Steps}, Inv barAt s →
      Steps.next barAt fuel s = some (some (st, s')) →
      NextOut barAt s st s' := by
  intro fuel
  induction fuel with
  | zero => intro s st s' _ hn; rw [next_zero] at hn; exact Option.noConfusion hn
  | succ f ih =>
    intro s st s' hI hn
    cases h : s.iter barAt f with
    | stop =>
      rw [next_stop h] at hn
      simp at hn
    | stuck =>
      rw [next_stuck h] at hn
      exact Option.noConfusion hn
    | emit st0 s1 =>
      rw [next_emit_eq h] at hn
      simp only [Option.some_inj, Prod.mk.injEq] at hn
      obtain ⟨rfl, rfl⟩ := hn
      have ho := iter_emit hI h
      have hb0 : st0.index_in_bar = 0 ↔ st0.ticks = s1.bar.start := by
        constructor
        · intro hz
          rw [ho.bar_eq]
          have := ho.step_src (ho.st_idx ▸ hz)
          exact this.2
        · intro hts
          rw [ho.bar_eq] at hts
          by_contra hnz
          have hnz' : s.index_in_bar ≠ 0 := fun hc => hnz (ho.st_idx ▸ hc)
          have hpe := ho.pos_eq
          rw [hts] at hpe
          have hidxpos : 1 ≤ (s.index_in_bar : ℚ) := by
            have : 1 ≤ s.index_in_bar := Nat.one_le_iff_ne_zero.mpr hnz'
            exact_mod_cast this
          nlinarith [ho.step_pos, hpe]
      refine {inv' := ho.inv'
              stat_tpb := ho.stat_tpb
              stat_tpp := ho.stat_tpp
              stat_vis := ho.stat_vis
              stat_min := ho.stat_min
              bar_start_mono := by rw [ho.bar_eq]
              idx_succ := by rw [ho.idx_eq, ho.st_idx]
              st_nonneg := ho.st_nonneg
              st_le_vis := ho.st_le_vis
              st_lt_stop := by rw [ho.bar_eq]; exact ho.st_lt_stop
              st_x := ho.st_x
              cursor := ho.cursor
              pos_eq := by rw [ho.bar_eq, ho.st_idx]; exact ho.pos_eq
              step_pos := ho.step_pos
              step_ge := by rw [ho.bar_eq]; exact ho.step_ge
              boundary_iff := hb0
              boundary_src := ?_
              lowb_le := ho.lowb_eq.le
              lowb_lt := ho.lowb_lt }
      intro hz
      refine ⟨f, ?_⟩
      rw [ho.bar_eq]
      exact (ho.step_src (ho.st_idx ▸ hz)).1
    | nextBar s1 =>
      rw [next_nextBar h] at hn
      have ho := iter_nextBar hI h
      have hoadv := ho.lowb_adv
      have out := ih ho.inv' hn
      exact { inv' := out.inv'
              stat_tpb := by rw [out.stat_tpb, ho.stat_tpb]
              stat_tpp := by rw [out.stat_tpp, ho.stat_tpp]
              stat_vis := by rw [out.stat_vis, ho.stat_vis]
              stat_min := by rw [out.stat_min, ho.stat_min]
              bar_start_mono := by
                calc s.bar.start ≤ s.bar.stop := hI.bar_lt.le
                  _ ≤ s1.bar.start := ho.sep_ge
                  _ ≤ s'.bar.start := out.bar_start_mono
              idx_succ := out.idx_succ
              st_nonneg := out.st_nonneg
              st_le_vis := by rw [← ho.stat_vis]; exact out.st_le_vis
              st_lt_stop := out.st_lt_stop
              st_x := by rw [← ho.stat_tpp]; exact out.st_x
              cursor := out.cursor
              pos_eq := out.pos_eq
              step_pos := out.step_pos
              step_ge := by rw [← ho.stat_min]; exact out.step_ge
              boundary_iff := out.boundary_iff
              boundary_src := by
                intro hz
                obtain ⟨g, hg⟩ := out.boundary_src hz
                exact ⟨g, by rw [← ho.stat_tpb, ← ho.stat_min]; exact hg⟩
              lowb_le := le_trans hoadv out.lowb_le
              lowb_lt := out.lowb_lt }
    | skip s1 =>
      rw [next_skip h] at hn
      have ho := iter_skip hI h
      have out := ih ho.inv' hn
      exact { inv' := out.inv'
              stat_tpb := by rw [out.stat_tpb, ho.stat_tpb]
              stat_tpp := by rw [out.stat_tpp, ho.stat_tpp]
              stat_vis := by rw [out.stat_vis, ho.stat_vis]
              stat_min := by rw [out.stat_min, ho.stat_min]
              bar_start_mono := by rw [← ho.bar_eq]; exact out.bar_start_mono
              idx_succ := out.idx_succ
              st_nonneg := out.st_nonneg
              st_le_vis := by rw [← ho.stat_vis]; exact out.st_le_vis
              st_lt_stop := out.st_lt_stop
              st_x := by rw [← ho.stat_tpp]; exact out.st_x
              cursor := out.cursor
              pos_eq := out.pos_eq
              step_pos := out.step_pos
              step_ge := by rw [← ho.stat_min]; exact out.step_ge
              boundary_iff := out.boundary_iff
              boundary_src := by
                intro hz
                obtain ⟨g, hg⟩ := out.boundary_src hz
                exact ⟨g, by rw [← ho.stat_tpb, ← ho.stat_min]; exact hg⟩
              lowb_le := le_trans ho.lowb_le out.lowb_le
              lowb_lt := out.lowb_lt }

end EguiTimeline

namespace EguiTimeline

/-- If a second step is produced without the bar changing, no bar advance
and no negative-tick skip can have happened in between: the step sits exactly
one step interval after the cursor, with the same interval. -/
theorem next_same_bar {barAt : ℚ → Bar} {fuel : ℕ} {s : Steps} {st : Step}
    {s' : Steps} (hI : Inv barAt s) (hidx : s.index_in_bar ≠ 0)
    (hpos : 0 ≤ s.ticks)
    (hn : Steps.next barAt fuel s = some (some (st, s')))
    (hbar : s'.bar = s.bar) :
    st.ticks = s.ticks ∧ s'.step_ticks = s.step_ticks ∧
    st.index_in_bar = s.index_in_bar := by
  cases fuel with
  | zero => rw [next_zero] at hn; exact Option.noConfusion hn
  | succ f =>
    cases h : s.iter barAt f with
    | stop => rw [next_stop h] at hn; simp at hn
    | stuck => rw [next_stuck h] at hn; exact Option.noConfusion hn
    | emit st0 s1 =>
      rw [next_emit_eq h] at hn
      simp only [Option.some_inj, Prod.mk.injEq] at hn
      obtain ⟨rfl, rfl⟩ := hn
      have ho := iter_emit hI h
      obtain ⟨hstep, hticks⟩ := ho.step_keep hidx
      exact ⟨hticks, hstep, ho.st_idx⟩
    | skip s1 =>
      exfalso
      have ho := iter_skip hI h
      obtain ⟨hstep, hticks⟩ := ho.step_keep hidx
      have hcap : s1.ticks - s1.step_ticks = s.ticks := by
        rw [hticks, hstep]; ring
      have := ho.cap_neg
      rw [hcap] at this
      linarith
    | nextBar s1 =>
      exfalso
      rw [next_nextBar h] at hn
      have ho := iter_nextBar hI h
      have out := next_emit_out ho.inv' hn
      have h1 : s.bar.stop ≤ s'.bar.start := le_trans ho.sep_ge out.bar_start_mono
      rw [hbar] at h1
      exact absurd (lt_of_lt_of_le hI.bar_lt h1) (lt_irrefl _)

/-- The freshly constructed generator state satisfies the invariant. -/
theorem new_inv {barAt : ℚ → Bar} (hh : HostOk barAt)
    {tpb tpp len gap : ℚ} (htpb : 0 < tpb) (htpp : 0 < tpp) (hgap : 0 < gap) :
    Inv barAt (Steps.new barAt tpb tpp len gap) :=
  { host := hh
    tpb_pos := htpb
    tpp_pos := htpp
    min_pos := mul_pos htpp hgap
    bar_mem := ⟨0, rfl⟩
    idx_inv := fun h => absurd rfl h }

/-! ## A concrete family of host bar lookups -/

/-- Uniform bars of length `len`, aligned so one bar starts at `off`, all with
time signature `sig`: the bar containing `t` runs from
`len * ⌊(t - off) / len⌋ + off` to one bar length later. -/
def uniformBars (len off : ℚ) (sig : TimeSig) (t : ℚ) : Bar :=
  { start := len * ⌊(t - off) / len⌋ + off
    stop := len * (⌊(t - off) / len⌋ + 1) + off
    time_sig := sig }

theorem uniformBars_hostOk {len off : ℚ} {sig : TimeSig}
    (hlen : 0 < len) (hsig : 4 ≤ sig.bottom) :
    HostOk (uniformBars len off sig) := by
  have hne : len ≠ 0 := ne_of_gt hlen
  refine { mem_le := ?_, lt_stop := ?_, sep := ?_, bottom4 := fun _ => hsig }
  · intro t
    show len * ⌊(t - off) / len⌋ + off ≤ t
    have h1 : (⌊(t - off) / len⌋ : ℚ) ≤ (t - off) / len := Int.floor_le _
    have h2 : len * (⌊(t - off) / len⌋ : ℚ) ≤ len * ((t - off) / len) :=
      mul_le_mul_of_nonneg_left h1 hlen.le
    rw [mul_div_cancel₀ _ hne] at h2
    linarith
  · intro t
    show t < len * (⌊(t - off) / len⌋ + 1) + off
    have h1 : (t - off) / len < (⌊(t - off) / len⌋ : ℚ) + 1 :=
      Int.lt_floor_add_one _
    have h2 : len * ((t - off) / len) < len * ((⌊(t - off) / len⌋ : ℚ) + 1) :=
      (mul_lt_mul_left hlen).mpr h1
    rw [mul_div_cancel₀ _ hne] at h2
    linarith
  · intro t u hle
    show len * (⌊(t - off) / len⌋ + 1) + off ≤ len * ⌊(u - off) / len⌋ + off
    have hle' : len * ((⌊(t - off) / len⌋ : ℚ) + 1) ≤ u - off := by
      have : len * (⌊(t - off) / len⌋ + 1) + off ≤ u := hle
      push_cast at this ⊢
      linarith
    have hdiv : (⌊(t - off) / len⌋ : ℚ) + 1 ≤ (u - off) / len := by
      rw [le_div_iff₀ hlen]
      linarith [hle']
    have hfl : ⌊(t - off) / len⌋ + 1 ≤ ⌊(u - off) / len⌋ := by
      apply Int.le_floor.mpr
      push_cast
      exact hdiv
    have : len * ((⌊(t - off) / len⌋ : ℚ) + 1) ≤ len * (⌊(u - off) / len⌋ : ℚ) := by
      apply mul_le_mul_of_nonneg_left _ hlen.le
      exact_mod_cast hfl
    push_cast at this ⊢
    linarith

end EguiTimeline

namespace EguiTimeline

/-! ## Shared concrete witness data: 4/4 bars of 16 ticks, `ticks_per_beat = 4`,
`ticks_per_point = 1`, 10 px visible, 4 px minimum gap (so `min_step_ticks = 4`
and the selected step interval is exactly 4 ticks). -/

def cBars : ℚ → Bar := uniformBars 16 0 ⟨4, 4⟩

def cInit : Steps := Steps.new cBars 4 1 10 4

theorem cBars_hostOk : HostOk cBars :=
  uniformBars_hostOk (by norm_num) (by norm_num)

theorem cInit_inv : Inv cBars cInit :=
  new_inv cBars_hostOk (by norm_num) (by norm_num) (by norm_num)

theorem cRun_eq : (Steps.runIter cBars 12 cInit).1 =
    [⟨0, 0, 0⟩, ⟨1, 4, 4⟩, ⟨2, 8, 8⟩] := by
  norm_num [Steps.runIter, Steps.iter, Steps.refresh, barStepTicks, subdivLoop,
    cBars, cInit, Steps.new, uniformBars]

def c2s1 : Steps :=
  { ticks_per_beat := 4, ticks_per_point := 1, visible_ticks := 10,
    min_step_ticks := 4, index_in_bar := 1, step_ticks := 4,
    bar := ⟨0, 16, ⟨4, 4⟩⟩, ticks := 4 }

def c2s2 : Steps :=
  { ticks_per_beat := 4, ticks_per_point := 1, visible_ticks := 10,
    min_step_ticks := 4, index_in_bar := 2, step_ticks := 4,
    bar := ⟨0, 16, ⟨4, 4⟩⟩, ticks := 8 }

theorem cNext1 : Steps.next cBars 9 cInit = some (some (⟨0, 0, 0⟩, c2s1)) := by
  norm_num [Steps.next, Steps.iter, Steps.refresh, barStepTicks, subdivLoop,
    cBars, cInit, Steps.new, uniformBars, c2s1]

theorem cNext2 : Steps.next cBars 9 c2s1 = some (some (⟨1, 4, 4⟩, c2s2)) := by
  norm_num [Steps.next, Steps.iter, Steps.refresh, barStepTicks, subdivLoop,
    cBars, uniformBars, c2s1, c2s2]

/-! ## Claims -/

/-- C1: under the stated preconditions (positive `ticks_per_beat` and
`ticks_per_point`, positive minimum gap, denominators at least 4, contiguous
non-overlapping bars from `bar_at_ticks` — all packaged in `Inv`), the
sequence of emitted steps has strictly increasing `ticks`; an emitted step
has `index_in_bar = 0` exactly when its tick is the start of the bar it lies
in (the post-state's bar); and such a boundary step's interval was recomputed
by the subdivision algorithm from that (new) bar, never kept from the
previous bar. -/
theorem claim_C1_monotone_boundary (barAt : ℚ → Bar) (s : Steps)
    (hI : Inv barAt s) :
    (∀ fuel, List.Pairwise (fun a b : Step => a.ticks < b.ticks)
        (Steps.runIter barAt fuel s).1) ∧
    (∀ (fuel : ℕ) (st : Step) (s' : Steps),
        Steps.next barAt fuel s = some (some (st, s')) →
        (st.index_in_bar = 0 ↔ st.ticks = s'.bar.start) ∧
        (st.index_in_bar = 0 →
          ∃ f, barStepTicks s.ticks_per_beat s.min_step_ticks s'.bar f =
            some s'.step_ticks)) := by
  constructor
  · intro fuel
    exact runIter_sorted hI
  · intro fuel st s' hn
    have out := next_emit_out hI hn
    exact ⟨out.boundary_iff, out.boundary_src⟩

theorem claim_C1_witness :
    List.Pairwise (fun a b : Step => a.ticks < b.ticks)
      (Steps.runIter cBars 12 cInit).1 :=
  (claim_C1_monotone_boundary cBars cInit cInit_inv).1 12

/-- C2 as amended: adjacent steps emitted within the same bar are separated
along x by at least `min_step_gap_px` exactly (first conjunct), and the
subdivision-doubling loop never selects a step interval strictly below
`min_step_ticks` when the bar's initial step interval is at least
`min_step_ticks` (second conjunct).  The original claim's "never at or
below" fails: when the initial interval equals `min_step_ticks` the loop
keeps it, selecting an interval exactly at the minimum (see the
counterexample). -/
theorem claim_C2_amended_gap :
    (∀ (barAt : ℚ → Bar) (s s1 s2 : Steps) (st1 st2 : Step) (f1 f2 : ℕ)
        (gap : ℚ),
      Inv barAt s → s.min_step_ticks = s.ticks_per_point * gap →
      Steps.next barAt f1 s = some (some (st1, s1)) →
      Steps.next barAt f2 s1 = some (some (st2, s2)) →
      s2.bar = s1.bar →
      gap ≤ st2.x - st1.x) ∧
    (∀ (tpb minStep v : ℚ) (bar : Bar) (f : ℕ),
      minStep ≤ tpb / ((bar.time_sig.bottom / 4 : ℕ) : ℚ) →
      barStepTicks tpb minStep bar f = some v →
      minStep ≤ v) := by
  constructor
  · intro barAt s s1 s2 st1 st2 f1 f2 gap hI hgap h1 h2 hbar
    have out1 := next_emit_out hI h1
    have out2 := next_emit_out out1.inv' h2
    have hidx1 : s1.index_in_bar ≠ 0 := by rw [out1.idx_succ]; omega
    have hpos1 : 0 ≤ s1.ticks := by
      rw [out1.cursor]
      have h3 := out1.st_nonneg
      have h4 := out1.step_pos
      linarith
    obtain ⟨hticks2, hstep2, hidx2⟩ := next_same_bar out1.inv' hidx1 hpos1 h2 hbar
    have hnotfb : s.min_step_ticks ≤ s1.step_ticks := by
      rcases out1.step_ge with h | h
      · exact h
      · exfalso
        have hL : 0 < s1.step_ticks := out1.step_pos
        have hcur : s1.ticks =
            s1.bar.start + ((st1.index_in_bar + 1 : ℕ) : ℚ) * s1.step_ticks := by
          rw [out1.cursor, out1.pos_eq]
          push_cast
          ring
        have hlt : s1.ticks < s1.bar.stop := by
          have h5 := out2.st_lt_stop
          rw [hticks2, hbar] at h5
          exact h5
        have hk : (1 : ℚ) ≤ ((st1.index_in_bar + 1 : ℕ) : ℚ) := by
          have : 1 ≤ st1.index_in_bar + 1 := Nat.succ_le_succ (Nat.zero_le _)
          exact_mod_cast this
        have hprod : 0 ≤ (((st1.index_in_bar + 1 : ℕ) : ℚ) - 1) * s1.step_ticks :=
          mul_nonneg (by linarith) hL.le
        nlinarith [hcur, hlt, hprod, h]
    have hx2 : st2.x = st2.ticks / s.ticks_per_point := by
      rw [out2.st_x, out1.stat_tpp]
    have hdiff : st2.ticks - st1.ticks = s1.step_ticks := by
      rw [hticks2, out1.cursor]
      ring
    have htpp := hI.tpp_pos
    have hxx : st2.x - st1.x = s1.step_ticks / s.ticks_per_point := by
      rw [hx2, out1.st_x, div_sub_div_same, hdiff]
    rw [hxx, le_div_iff₀ htpp]
    rw [hgap] at hnotfb
    linarith
  · intro tpb minStep v bar f hinit hv
    unfold barStepTicks at hv
    split_ifs at hv
    exact subdivLoop_ge hinit hv

/-- C2, counterexample to the claim as stated: with `ticks_per_beat = 4`,
`min_step_ticks = 4` and a 4/4 bar, the initial step interval is `4/1 = 4 ≥
min_step_ticks`, yet the doubling loop selects exactly 4, which is *at*
(hence "at or below") `min_step_ticks` — refuting "never selects a step
interval at or below min_step_ticks". -/
theorem claim_C2_counterexample :
    ¬ (∀ (tpb minStep v : ℚ) (bar : Bar) (f : ℕ),
        minStep ≤ tpb / ((bar.time_sig.bottom / 4 : ℕ) : ℚ) →
        barStepTicks tpb minStep bar f = some v →
        minStep < v) := by
  intro h
  have h1 : barStepTicks 4 4 ⟨0, 16, ⟨4, 4⟩⟩ 5 = some 4 := by
    norm_num [barStepTicks, subdivLoop]
  have h2 : (4 : ℚ) ≤
      4 / ((((⟨0, 16, ⟨4, 4⟩⟩ : Bar).time_sig.bottom / 4 : ℕ)) : ℚ) := by
    norm_num
  exact absurd (h 4 4 4 ⟨0, 16, ⟨4, 4⟩⟩ 5 h2 h1) (lt_irrefl 4)

theorem claim_C2_witness :
    (4 : ℚ) ≤ (⟨1, 4, 4⟩ : Step).x - (⟨0, 0, 0⟩ : Step).x ∧
    (4 : ℚ) ≤ (4 : ℚ) := by
  constructor
  · exact claim_C2_amended_gap.1 cBars cInit c2s1 c2s2 ⟨0, 0, 0⟩ ⟨1, 4, 4⟩ 9 9 4
      cInit_inv rfl cNext1 cNext2 rfl
  · exact claim_C2_amended_gap.2 4 4 4 ⟨0, 16, ⟨4, 4⟩⟩ 5 (by norm_num)
      (by norm_num [barStepTicks, subdivLoop])

/-- C5: the coordinate mapping round-trips exactly over the rational model:
mapping a tick to a pixel offset by division and back by multiplication is
the identity, and vice versa, for any zoom factor `z > 0`. -/
theorem claim_C5_roundtrip (tick x z : ℚ) (htick : 0 ≤ tick) (hz : 0 < z) :
    x_to_tick (tick_to_x tick z) z = tick ∧
    tick_to_x (x_to_tick x z) z = x := by
  have hne : z ≠ 0 := ne_of_gt hz
  constructor
  · rw [tick_to_x, x_to_tick, div_mul_cancel₀ _ hne]
  · rw [tick_to_x, x_to_tick, mul_div_cancel_right₀ _ hne]

theorem claim_C5_witness :
    x_to_tick (tick_to_x 120 2) 2 = 120 ∧ tick_to_x (x_to_tick 7 2) 2 = 7 :=
  claim_C5_roundtrip 120 7 2 (by norm_num) (by norm_num)

/-- C9: every emitted step satisfies `0 ≤ ticks ≤ visible_ticks` and
`x = ticks / ticks_per_point`, hence `0 ≤ x ≤ visible_len_px`; negative-tick
steps are never emitted and no step passes the visible boundary. -/
theorem claim_C9_range (barAt : ℚ → Bar) (s : Steps) (hI : Inv barAt s)
    (len : ℚ) (hlen : s.visible_ticks = s.ticks_per_point * len) :
    ∀ fuel, ∀ st ∈ (Steps.runIter barAt fuel s).1,
      0 ≤ st.ticks ∧ st.ticks ≤ s.visible_ticks ∧
      st.x = st.ticks / s.ticks_per_point ∧ 0 ≤ st.x ∧ st.x ≤ len := by
  intro fuel st hst
  obtain ⟨h1, h2, h3⟩ := runIter_bounds hI st hst
  have htpp := hI.tpp_pos
  refine ⟨h1, h2, h3, ?_, ?_⟩
  · rw [h3]
    positivity
  · rw [h3, div_le_iff₀ htpp]
    rw [hlen] at h2
    linarith

theorem claim_C9_witness :
    0 ≤ (⟨1, 4, 4⟩ : Step).ticks ∧
    (⟨1, 4, 4⟩ : Step).ticks ≤ cInit.visible_ticks ∧
    (⟨1, 4, 4⟩ : Step).x = (⟨1, 4, 4⟩ : Step).ticks / cInit.ticks_per_point ∧
    0 ≤ (⟨1, 4, 4⟩ : Step).x ∧ (⟨1, 4, 4⟩ : Step).x ≤ 10 :=
  claim_C9_range cBars cInit cInit_inv 10 rfl 12 ⟨1, 4, 4⟩
    (by rw [cRun_eq]; simp)

end EguiTimeline

namespace EguiTimeline

/-! ## Viewport gesture handler, ruler click controller, playhead controller -/

/-- The single tick-space action dispatched for one scroll event. -/
inductive ScrollAction where
  | zoomBy : ℚ → ScrollAction
  | shiftStart : ℚ → ScrollAction
  | nothing : ScrollAction
  deriving DecidableEq, Repr

/-- Scroll dispatch of `Timeline::show` (`src/lib.rs:114-127`): only when the
pointer is over the timeline rect; with `Ctrl` held, any nonzero delta becomes
`zoom(delta.y - delta.x)`; without it, a nonzero horizontal delta becomes
`shift_timeline_start(delta.x * ticks_per_point)`; otherwise nothing. -/
def scrollAction (over ctrl : Bool) (dx dy tpp : ℚ) : ScrollAction :=
  if over then
    if ctrl then
      if dx ≠ 0 ∨ dy ≠ 0 then .zoomBy (dy - dx) else .nothing
    else if dx ≠ 0 then .shiftStart (dx * tpp) else .nothing
  else .nothing

/-- One interaction event: `response.clicked()`, `response.dragged()` and the
x coordinate of `response.interact_pointer_pos()` when present. -/
structure PointerEvent where
  clicked : Bool
  dragged : Bool
  pointer : Option ℚ
  deriving DecidableEq, Repr

/-- The tick the ruler computes from a pointer x (`src/ruler.rs:41`):
`(((pt.x - rect.min.x) / w) * visible_ticks).max(0.0)` with
`visible_ticks = w * ticks_per_point`. -/
def ruler_tick (px left w tpp : ℚ) : ℚ :=
  max (((px - left) / w) * (w * tpp)) 0

/-- The `click_at_tick` invocations made by `musical` for one event
(`src/ruler.rs:39-45`): one call when the event is a click or drag with a
pointer position, none otherwise. -/
def ruler_clicks (ev : PointerEvent) (left w tpp : ℚ) : List ℚ :=
  if ev.clicked || ev.dragged then
    match ev.pointer with
    | some px => [ruler_tick px left w tpp]
    | none => []
  else []

/-- Whether `musical` calls `mark_changed` (`src/ruler.rs:43`): in the same
branch as the callback invocation. -/
def ruler_changed (ev : PointerEvent) : Bool :=
  if ev.clicked || ev.dragged then ev.pointer.isSome else false

/-- Playhead pixel position (`src/playhead.rs:88`):
`timeline_rect.left() + playhead_ticks / ticks_per_point`. -/
def playhead_x (left pos tpp : ℚ) : ℚ := left + pos / tpp

/-- Whether the playhead rect is painted (`src/playhead.rs:115`):
`timeline_rect.x_range().contains(playhead_x)`, an inclusive range check.
Painting is independent of the interaction handling below, which runs
unconditionally (`src/playhead.rs:99,106`). -/
def playhead_painted (left right pos tpp : ℚ) : Bool :=
  decide (left ≤ playhead_x left pos tpp ∧ playhead_x left pos tpp ≤ right)

/-- The `set_playhead_ticks` invocations made by `playhead::set` for one
event (`src/playhead.rs:106-112`), mirroring the ruler computation. -/
def playhead_sets (ev : PointerEvent) (left w tpp : ℚ) : List ℚ :=
  if ev.clicked || ev.dragged then
    match ev.pointer with
    | some px => [max (((px - left) / w) * (w * tpp)) 0]
    | none => []
  else []

/-- C6: for a scroll event over the timeline, with the zoom modifier held and
a nonzero delta exactly `zoom(dy - dx)` is dispatched (no pan); without the
modifier a nonzero `dx` dispatches exactly `shift_timeline_start(dx * tpp)`
(no zoom); a vertical-only scroll without the modifier dispatches nothing.
Scenarios: `delta = (3, -2)` with modifier gives `zoom(-5)`; `delta = (10, 0)`
without modifier at `tpp = 2` gives `shift_timeline_start(20)`. -/
theorem claim_C6_gesture :
    (∀ dx dy tpp : ℚ, (dx ≠ 0 ∨ dy ≠ 0) →
      scrollAction true true dx dy tpp = .zoomBy (dy - dx)) ∧
    (∀ dx dy tpp : ℚ, dx ≠ 0 →
      scrollAction true false dx dy tpp = .shiftStart (dx * tpp)) ∧
    (∀ dy tpp : ℚ, scrollAction true false 0 dy tpp = .nothing) ∧
    scrollAction true true 3 (-2) 1 = .zoomBy (-5) ∧
    scrollAction true false 10 0 2 = .shiftStart 20 := by
  refine ⟨?_, ?_, ?_, ?_, ?_⟩
  · intro dx dy tpp h
    simp [scrollAction, h]
  · intro dx dy tpp h
    simp [scrollAction, h]
  · intro dy tpp
    simp [scrollAction]
  · norm_num [scrollAction]
  · norm_num [scrollAction]

theorem claim_C6_witness :
    scrollAction true true 3 (-2) 1 = ScrollAction.zoomBy (-2 - 3) ∧
    scrollAction true false 10 0 2 = ScrollAction.shiftStart (10 * 2) :=
  ⟨claim_C6_gesture.1 3 (-2) 1 (Or.inl (by norm_num)),
   claim_C6_gesture.2.1 10 0 2 (by norm_num)⟩

/-- C7: on a click or drag with a pointer position, the ruler dispatches
exactly one `click_at_tick` with
`max(((pointer_x - left) / w) * visible_ticks, 0)`, and the response is
marked changed exactly when the callback was invoked; a click a quarter of
the way into a viewport with 480 visible ticks dispatches tick 120. -/
theorem claim_C7_ruler_click :
    (∀ (ev : PointerEvent) (left w tpp px : ℚ),
      (ev.clicked || ev.dragged) = true → ev.pointer = some px →
      ruler_clicks ev left w tpp = [max (((px - left) / w) * (w * tpp)) 0]) ∧
    (∀ (ev : PointerEvent) (left w tpp : ℚ),
      ruler_changed ev = true ↔ ruler_clicks ev left w tpp ≠ []) ∧
    ruler_tick 100 0 400 (6/5) = 120 := by
  refine ⟨?_, ?_, ?_⟩
  · intro ev left w tpp px he hp
    simp [ruler_clicks, ruler_tick, he, hp]
  · intro ev left w tpp
    cases hp : ev.pointer with
    | none => simp [ruler_changed, ruler_clicks, hp]
    | some px =>
      cases he : ev.clicked || ev.dragged with
      | false => simp [ruler_changed, ruler_clicks, he]
      | true => simp [ruler_changed, ruler_clicks, he, hp]
  · have h : ((100 : ℚ) - 0) / 400 * (400 * (6/5)) = 120 := by norm_num
    rw [ruler_tick, h]
    exact max_eq_left (by norm_num)

theorem claim_C7_witness :
    ruler_clicks ⟨true, false, some 100⟩ 0 400 (6/5) =
      [max (((100 - 0) / 400) * (400 * (6/5))) 0] :=
  claim_C7_ruler_click.1 ⟨true, false, some 100⟩ 0 400 (6/5) 100 rfl rfl

/-- C8: the playhead's pixel x is the timeline's left edge plus
`position_ticks / ticks_per_point`; it is painted exactly when that x lies
in the inclusive visible horizontal range; and independently of painting,
every click or drag with a pointer dispatches one `set_playhead_ticks` with
the inverse-mapped tick clamped to be nonnegative. -/
theorem claim_C8_playhead :
    (∀ left pos tpp : ℚ, playhead_x left pos tpp = left + pos / tpp) ∧
    (∀ left right pos tpp : ℚ,
      playhead_painted left right pos tpp = true ↔
      (left ≤ left + pos / tpp ∧ left + pos / tpp ≤ right)) ∧
    (∀ (ev : PointerEvent) (left w tpp px : ℚ),
      (ev.clicked || ev.dragged) = true → ev.pointer = some px →
      playhead_sets ev left w tpp =
        [max (((px - left) / w) * (w * tpp)) 0] ∧
      0 ≤ max (((px - left) / w) * (w * tpp)) 0) := by
  refine ⟨fun _ _ _ => rfl, ?_, ?_⟩
  · intro left right pos tpp
    simp [playhead_painted, playhead_x]
  · intro ev left w tpp px he hp
    refine ⟨by simp [playhead_sets, he, hp], le_max_right _ _⟩

theorem claim_C8_witness :
    playhead_sets ⟨false, true, some 100⟩ 0 400 (6/5) =
      [max (((100 - 0) / 400) * (400 * (6/5))) 0] ∧
    0 ≤ max ((((100 : ℚ) - 0) / 400) * (400 * (6/5))) 0 :=
  claim_C8_playhead.2.2 ⟨false, true, some 100⟩ 0 400 (6/5) 100 rfl rfl

end EguiTimeline

namespace EguiTimeline

/-! ## Claim C4: bar-length fallback -/

theorem iter_emits_of {barAt : ℚ → Bar} {fuel : ℕ} {s t : Steps}
    (hrf : s.refresh fuel = some t)
    (h1 : ¬ t.visible_ticks < t.ticks) (h2 : ¬ t.bar.stop ≤ t.ticks)
    (h3 : ¬ t.ticks < 0) :
    s.iter barAt fuel =
      .emit ⟨t.index_in_bar, t.ticks, t.ticks / t.ticks_per_point⟩
        { t with index_in_bar := t.index_in_bar + 1, ticks := t.ticks + t.step_ticks } := by
  rw [iter_of_refresh hrf, if_neg h1, if_neg h2, if_neg h3]

/-- C4 as amended: a bar whose natural beat subdivision falls below the
minimum gets the bar length as its step interval, and — provided its start
is nonnegative and its end is inside the visible range — the generator emits
exactly one step for it, at its start: the next call emits that step and
every later step lies at or beyond the bar's end.  (The nonnegative-start
proviso is forced by the counterexample: a fallback bar that begins before
tick 0 has its only candidate step skipped as negative and gets no step.) -/
theorem claim_C4_fallback (barAt : ℚ → Bar) (s : Steps) (hI : Inv barAt s)
    (hidx : s.index_in_bar = 0)
    (hfb : s.ticks_per_beat / ((s.bar.time_sig.bottom / 4 : ℕ) : ℚ) <
      s.min_step_ticks)
    (hstart : 0 ≤ s.bar.start) (hstop : s.bar.stop ≤ s.visible_ticks) :
    ∀ fuel : ℕ, ∃ s1 : Steps,
      Steps.next barAt (fuel + 1) s =
        some (some (⟨0, s.bar.start, s.bar.start / s.ticks_per_point⟩, s1)) ∧
      s1.step_ticks = s.bar.stop - s.bar.start ∧
      ∀ f2 : ℕ, ∀ st2 ∈ (Steps.runIter barAt f2 s1).1, s.bar.stop ≤ st2.ticks := by
  intro fuel
  have hlt := hI.bar_lt
  have hbst : barStepTicks s.ticks_per_beat s.min_step_ticks s.bar fuel =
      some (s.bar.stop - s.bar.start) := by
    unfold barStepTicks
    rw [if_neg hI.subdivs_ne, if_neg (not_le.mpr hfb)]
  have hrf : s.refresh fuel =
      some { s with ticks := s.bar.start, step_ticks := s.bar.stop - s.bar.start } := by
    unfold Steps.refresh
    rw [if_pos hidx, hbst]
    rfl
  have h1 : ¬ ({ s with ticks := s.bar.start, step_ticks := s.bar.stop - s.bar.start } : Steps).visible_ticks <
      ({ s with ticks := s.bar.start, step_ticks := s.bar.stop - s.bar.start } : Steps).ticks := by
    show ¬ s.visible_ticks < s.bar.start
    push_neg
    linarith
  have h2 : ¬ ({ s with ticks := s.bar.start, step_ticks := s.bar.stop - s.bar.start } : Steps).bar.stop ≤
      ({ s with ticks := s.bar.start, step_ticks := s.bar.stop - s.bar.start } : Steps).ticks := by
    show ¬ s.bar.stop ≤ s.bar.start
    push_neg
    exact hlt
  have h3 : ¬ ({ s with ticks := s.bar.start, step_ticks := s.bar.stop - s.bar.start } : Steps).ticks < 0 := by
    show ¬ s.bar.start < 0
    push_neg
    exact hstart
  have hiter := @iter_emits_of barAt fuel s _ hrf h1 h2 h3
  obtain ⟨st0, s1, hiter'⟩ : ∃ st0 s1, s.iter barAt fuel = .emit st0 s1 :=
    ⟨_, _, hiter⟩
  have ho := iter_emit hI hiter'
  have hstticks : st0.ticks = s.bar.start := (ho.step_src hidx).2
  have hstep : s1.step_ticks = s.bar.stop - s.bar.start := by
    have h4 := (ho.step_src hidx).1
    rw [hbst] at h4
    exact (Option.some_inj.mp h4).symm
  have hstidx : st0.index_in_bar = 0 := by rw [ho.st_idx, hidx]
  have hstx : st0.x = s.bar.start / s.ticks_per_point := by
    rw [ho.st_x, hstticks]
  have hst0eq : st0 = ⟨0, s.bar.start, s.bar.start / s.ticks_per_point⟩ := by
    rcases st0 with ⟨i, tk, xx⟩
    simp only at hstidx hstticks hstx
    rw [hstidx, hstticks, hstx]
  refine ⟨s1, ?_, hstep, ?_⟩
  · rw [next_emit_eq hiter', hst0eq]
  · intro f2 st2 hmem
    have hlb := runIter_lb ho.inv' st2 hmem
    have hlb2 : lowb s1 = s.bar.stop := by
      rw [lowb, if_neg (by rw [ho.idx_eq]; omega)]
      have hticks1 : s1.ticks = s.bar.stop := by
        rw [ho.cursor, hstticks, hstep]
        ring
      rw [hticks1, ho.bar_eq, min_self]
    rw [← hlb2]
    exact hlb

end EguiTimeline

namespace EguiTimeline

/-- Bars of 20 ticks starting at tick −10 (the bar containing tick 0 is
`[-10, 10)`), in 4/4. -/
def oBars : ℚ → Bar := uniformBars 20 (-10) ⟨4, 4⟩

theorem oBars_hostOk : HostOk oBars :=
  uniformBars_hostOk (by norm_num) (by norm_num)

/-- `ticks_per_beat = 1 < min_step_ticks = 4`, so every bar takes the
bar-length fallback; 40 ticks visible. -/
def oInit : Steps := Steps.new oBars 1 1 40 4

/-- C4, counterexample to the claim as stated: the bar containing tick 0 is
`[-10, 10)`, its natural subdivision step `1` is below `min_step_ticks = 4`
(fallback applies) and its end `10` lies within the 40 visible ticks, yet the
complete finished run emits NO step for that bar — its only candidate step,
at the bar start `-10`, is negative and skipped — refuting "emits exactly one
step for that bar, located at the bar's start". -/
theorem claim_C4_counterexample :
    (Steps.runIter oBars 10 oInit).1 = [⟨0, 10, 10⟩, ⟨0, 30, 30⟩] ∧
    (Steps.runIter oBars 10 oInit).2.2 = true ∧
    (oBars 0).start = -10 ∧ (oBars 0).stop = 10 ∧
    oInit.ticks_per_beat / (((oBars 0).time_sig.bottom / 4 : ℕ) : ℚ) <
      oInit.min_step_ticks ∧
    (oBars 0).stop ≤ oInit.visible_ticks ∧
    (⟨0, -10, -10⟩ : Step) ∉ (Steps.runIter oBars 10 oInit).1 := by
  have hrun : Steps.runIter oBars 10 oInit =
      ([⟨0, 10, 10⟩, ⟨0, 30, 30⟩], 2, true) := by
    norm_num [Steps.runIter, Steps.iter, Steps.refresh, barStepTicks,
      subdivLoop, oBars, oInit, Steps.new, uniformBars]
  refine ⟨by rw [hrun], by rw [hrun], ?_, ?_, ?_, ?_, ?_⟩
  · norm_num [oBars, uniformBars]
  · norm_num [oBars, uniformBars]
  · norm_num [oBars, oInit, uniformBars, Steps.new]
  · norm_num [oBars, oInit, uniformBars, Steps.new]
  · rw [hrun]
    norm_num [List.mem_cons, Step.mk.injEq]

/-- The state of the generator at entry of the fallback bar `[10, 30)`. -/
def wBar4 : Steps :=
  { ticks_per_beat := 1, ticks_per_point := 1, visible_ticks := 40,
    min_step_ticks := 4, index_in_bar := 0, step_ticks := 0,
    bar := ⟨10, 30, ⟨4, 4⟩⟩, ticks := 10 }

theorem wBar4_inv : Inv oBars wBar4 :=
  { host := oBars_hostOk
    tpb_pos := by norm_num [wBar4]
    tpp_pos := by norm_num [wBar4]
    min_pos := by norm_num [wBar4]
    bar_mem := ⟨15, by norm_num [wBar4, oBars, uniformBars, Bar.mk.injEq]⟩
    idx_inv := fun h => absurd rfl h }

theorem claim_C4_witness :
    ∃ s1 : Steps,
      Steps.next oBars (3 + 1) wBar4 =
        some (some (⟨0, wBar4.bar.start,
          wBar4.bar.start / wBar4.ticks_per_point⟩, s1)) ∧
      s1.step_ticks = wBar4.bar.stop - wBar4.bar.start ∧
      ∀ f2 : ℕ, ∀ st2 ∈ (Steps.runIter oBars f2 s1).1,
        wBar4.bar.stop ≤ st2.ticks :=
  claim_C4_fallback oBars wBar4 wBar4_inv rfl (by norm_num [wBar4])
    (by norm_num [wBar4]) (by norm_num [wBar4]) 3

/-! ## Claim C10: skipped negative steps consume the index counter -/

/-- Within the first bar, while every prior candidate step was negative and
skipped, the first emitted step (if it lies in this bar) sits
`index_in_bar` step intervals past the bar start, with all earlier slots
negative. -/
theorem runIter_first_in_bar {barAt : ℚ → Bar} :
    ∀ {fuel : ℕ} {s : Steps} {st : Step} {l : List Step} {a : ℕ} {fin : Bool},
      Inv barAt s → s.index_in_bar ≠ 0 →
      (∀ j : ℕ, j < s.index_in_bar → s.bar.start + j * s.step_ticks < 0) →
      Steps.runIter barAt fuel s = (st :: l, a, fin) →
      st.ticks < s.bar.stop →
      st.ticks = s.bar.start + st.index_in_bar * s.step_ticks ∧
      s.index_in_bar ≤ st.index_in_bar ∧
      (∀ j : ℕ, j < st.index_in_bar → s.bar.start + j * s.step_ticks < 0) := by
  intro fuel
  induction fuel with
  | zero =>
    intro s st l a fin _ _ _ hrun _
    rw [runIter_zero] at hrun
    simp at hrun
  | succ f ih =>
    intro s st l a fin hI hidx hneg hrun hstop
    cases h : s.iter barAt f with
    | stop => rw [runIter_stop h] at hrun; simp at hrun
    | stuck => rw [runIter_stuck h] at hrun; simp at hrun
    | emit st0 s1 =>
      rw [runIter_emit h] at hrun
      have hst : st0 = st := by
        have h1 : st0 :: (Steps.runIter barAt f s1).1 = st :: l :=
          congrArg Prod.fst hrun
        injection h1
      have ho := iter_emit hI h
      have hc : s.ticks = s.bar.start + s.index_in_bar * s.step_ticks :=
        (hI.idx_inv hidx).1
      have hticks0 : st0.ticks = s.ticks := (ho.step_keep hidx).2
      refine ⟨?_, ?_, ?_⟩
      · rw [← hst, ho.st_idx, hticks0, hc]
      · rw [← hst, ho.st_idx]
      · intro j hj
        rw [← hst, ho.st_idx] at hj
        exact hneg j hj
    | nextBar s1 =>
      exfalso
      have ho := iter_nextBar hI h
      rw [runIter_nextBar h] at hrun
      have hmem : st ∈ (Steps.runIter barAt f s1).1 := by
        have h1 : (Steps.runIter barAt f s1).1 = st :: l := congrArg Prod.fst hrun
        rw [h1]
        exact List.mem_cons_self st l
      have hlb := runIter_lb ho.inv' st hmem
      have hlb2 : s.bar.stop ≤ lowb s1 := by
        rw [lowb, if_pos ho.idx0]
        exact ho.sep_ge
      linarith
    | skip s1 =>
      rw [runIter_skip h] at hrun
      have ho := iter_skip hI h
      obtain ⟨hstep, hticks⟩ := ho.step_keep hidx
      have hbar1 : s1.bar = s.bar := ho.bar_eq
      have hneg1 : ∀ j : ℕ, j < s1.index_in_bar →
          s1.bar.start + j * s1.step_ticks < 0 := by
        intro j hj
        rw [hbar1, hstep]
        rw [ho.idx_eq] at hj
        rcases Nat.lt_succ_iff_lt_or_eq.mp hj with hj | hj
        · exact hneg j hj
        · subst hj
          have hcap := ho.cap_neg
          rw [hticks, hstep] at hcap
          have hc : s.ticks = s.bar.start + s.index_in_bar * s.step_ticks :=
            (hI.idx_inv hidx).1
          have : s.ticks + s.step_ticks - s.step_ticks = s.ticks := by ring
          rw [this] at hcap
          rw [← hc]
          exact hcap
      have hidx1 : s1.index_in_bar ≠ 0 := by rw [ho.idx_eq]; omega
      have hstop1 : st.ticks < s1.bar.stop := by rw [hbar1]; exact hstop
      obtain ⟨h1, h2, h3⟩ := ih ho.inv' hidx1 hneg1 hrun hstop1
      rw [hbar1, hstep] at h1
      rw [ho.idx_eq] at h2
      refine ⟨h1, by omega, ?_⟩
      intro j hj
      have := h3 j hj
      rw [hbar1, hstep] at this
      exact this

end EguiTimeline

namespace EguiTimeline

/-- C10: when the bar containing tick 0 starts at a negative tick, the
skipped negative steps still increment the index counter: the first emitted
step of that bar has `index_in_bar` equal to the number of skipped negative
candidate steps (positive, so it is not marked as a bar boundary), sitting
that many step intervals past the bar start, with every earlier slot
negative. -/
theorem claim_C10_skips_consume_index (barAt : ℚ → Bar) (s : Steps)
    (hI : Inv barAt s) (hidx : s.index_in_bar = 0) (hneg : s.bar.start < 0) :
    ∀ (fuel : ℕ) (st : Step) (l : List Step) (a : ℕ) (fin : Bool),
      Steps.runIter barAt fuel s = (st :: l, a, fin) →
      st.ticks < s.bar.stop →
      0 < st.index_in_bar ∧ 0 ≤ st.ticks ∧
      ∃ stepT : ℚ, 0 < stepT ∧
        (∃ f, barStepTicks s.ticks_per_beat s.min_step_ticks s.bar f =
          some stepT) ∧
        st.ticks = s.bar.start + st.index_in_bar * stepT ∧
        ∀ j : ℕ, j < st.index_in_bar → s.bar.start + j * stepT < 0 := by
  intro fuel st l a fin hrun hstop
  have hmem : st ∈ (Steps.runIter barAt fuel s).1 := by
    rw [hrun]
    exact List.mem_cons_self st l
  have hb := (runIter_bounds hI st hmem).1
  cases fuel with
  | zero => rw [runIter_zero] at hrun; simp at hrun
  | succ f =>
    cases h : s.iter barAt f with
    | stop => rw [runIter_stop h] at hrun; simp at hrun
    | stuck => rw [runIter_stuck h] at hrun; simp at hrun
    | nextBar s1 => exact absurd hidx (iter_nextBar hI h).pre_idx
    | emit st0 s1 =>
      exfalso
      have ho := iter_emit hI h
      have h1 := (ho.step_src hidx).2
      have h2 := ho.st_nonneg
      rw [h1] at h2
      linarith
    | skip s1 =>
      rw [runIter_skip h] at hrun
      have ho := iter_skip hI h
      have hneg1 : ∀ j : ℕ, j < s1.index_in_bar →
          s1.bar.start + j * s1.step_ticks < 0 := by
        intro j hj
        rw [ho.idx_eq, hidx] at hj
        have hj0 : j = 0 := by omega
        subst hj0
        rw [ho.bar_eq]
        push_cast
        linarith
      have hidx1 : s1.index_in_bar ≠ 0 := by rw [ho.idx_eq]; omega
      have hstop1 : st.ticks < s1.bar.stop := by rw [ho.bar_eq]; exact hstop
      obtain ⟨h1, h2, h3⟩ := runIter_first_in_bar ho.inv' hidx1 hneg1 hrun hstop1
      refine ⟨?_, hb, s1.step_ticks, ho.step_pos, ⟨f, ho.step_src hidx⟩, ?_, ?_⟩
      · rw [ho.idx_eq, hidx] at h2
        omega
      · rw [← ho.bar_eq]
        exact h1
      · intro j hj
        have h4 := h3 j hj
        rw [ho.bar_eq] at h4
        exact h4

/-- Bars of 480 ticks starting at tick −10 in 4/4: the bar containing tick 0
is `[-10, 470)`. -/
def oBars2 : ℚ → Bar := uniformBars 480 (-10) ⟨4, 4⟩

theorem oBars2_hostOk : HostOk oBars2 :=
  uniformBars_hostOk (by norm_num) (by norm_num)

/-- `ticks_per_beat = 120`, 10 visible ticks, 4 px gap: the chosen step is
7.5 ticks, so the candidates −10 and −2.5 are skipped and the first emitted
step is `⟨2, 5, 5⟩`. -/
def oInit2 : Steps := Steps.new oBars2 120 1 10 4

theorem oInit2_inv : Inv oBars2 oInit2 :=
  new_inv oBars2_hostOk (by norm_num) (by norm_num) (by norm_num)

theorem claim_C10_witness :
    0 < (⟨2, 5, 5⟩ : Step).index_in_bar ∧ 0 ≤ (⟨2, 5, 5⟩ : Step).ticks ∧
    ∃ stepT : ℚ, 0 < stepT ∧
      (∃ f, barStepTicks oInit2.ticks_per_beat oInit2.min_step_ticks
        oInit2.bar f = some stepT) ∧
      (⟨2, 5, 5⟩ : Step).ticks =
        oInit2.bar.start + (⟨2, 5, 5⟩ : Step).index_in_bar * stepT ∧
      ∀ j : ℕ, j < (⟨2, 5, 5⟩ : Step).index_in_bar →
        oInit2.bar.start + j * stepT < 0 :=
  claim_C10_skips_consume_index oBars2 oInit2 oInit2_inv rfl
    (by norm_num [oInit2, oBars2, Steps.new, uniformBars])
    8 ⟨2, 5, 5⟩ [] 0 true
    (by norm_num [Steps.runIter, Steps.iter, Steps.refresh, barStepTicks,
      subdivLoop, oBars2, oInit2, Steps.new, uniformBars])
    (by norm_num [oInit2, oBars2, Steps.new, uniformBars])

end EguiTimeline

namespace EguiTimeline

/-! ## Fuel monotonicity -/

theorem refresh_mono {fuel : ℕ} {s t : Steps} (h : s.refresh fuel = some t) :
    s.refresh (fuel + 1) = some t := by
  unfold Steps.refresh at h ⊢
  split_ifs at h ⊢ with h0
  · rw [Option.map_eq_some'] at h ⊢
    obtain ⟨v, hv, ht⟩ := h
    exact ⟨v, barStepTicks_mono hv, ht⟩
  · exact h

theorem refresh_mono_le {fuel fuel' : ℕ} {s t : Steps} (hle : fuel ≤ fuel')
    (h : s.refresh fuel = some t) : s.refresh fuel' = some t := by
  induction fuel' with
  | zero => exact (Nat.le_zero.mp hle) ▸ h
  | succ f ih =>
    rcases Nat.lt_or_ge fuel (f + 1) with hlt | hge
    · exact refresh_mono (ih (Nat.lt_succ_iff.mp hlt))
    · exact (Nat.le_antisymm hle hge) ▸ h

theorem iter_mono_le {barAt : ℚ → Bar} {fuel fuel' : ℕ} {s : Steps}
    (hle : fuel ≤ fuel') (hne : s.iter barAt fuel ≠ .stuck) :
    s.iter barAt fuel' = s.iter barAt fuel := by
  cases hrf : s.refresh fuel with
  | none => exact absurd (iter_stuck_iff.mpr hrf) hne
  | some t =>
    rw [iter_of_refresh hrf, iter_of_refresh (refresh_mono_le hle hrf)]

theorem runIter_mono {barAt : ℚ → Bar} :
    ∀ {fuel : ℕ} {s : Steps}, (Steps.runIter barAt fuel s).2.2 = true →
      Steps.runIter barAt (fuel + 1) s = Steps.runIter barAt fuel s := by
  intro fuel
  induction fuel with
  | zero =>
    intro s hfin
    rw [runIter_zero] at hfin
    simp at hfin
  | succ f ih =>
    intro s hfin
    cases h : s.iter barAt f with
    | stop =>
      have h2 : s.iter barAt (f + 1) = .stop := by
        rw [iter_mono_le (Nat.le_succ f) (by rw [h]; simp), h]
      rw [runIter_stop h2, runIter_stop h]
    | stuck =>
      rw [runIter_stuck h] at hfin
      simp at hfin
    | emit st0 s1 =>
      rw [runIter_emit h] at hfin
      simp only at hfin
      have h2 : s.iter barAt (f + 1) = .emit st0 s1 := by
        rw [iter_mono_le (Nat.le_succ f) (by rw [h]; simp), h]
      rw [runIter_emit h2, runIter_emit h, ih hfin]
    | nextBar s1 =>
      rw [runIter_nextBar h] at hfin
      simp only at hfin
      have h2 : s.iter barAt (f + 1) = .nextBar s1 := by
        rw [iter_mono_le (Nat.le_succ f) (by rw [h]; simp), h]
      rw [runIter_nextBar h2, runIter_nextBar h, ih hfin]
    | skip s1 =>
      rw [runIter_skip h] at hfin
      have h2 : s.iter barAt (f + 1) = .skip s1 := by
        rw [iter_mono_le (Nat.le_succ f) (by rw [h]; simp), h]
      rw [runIter_skip h2, runIter_skip h, ih hfin]

theorem runIter_mono_le {barAt : ℚ → Bar} {fuel fuel' : ℕ} {s : Steps}
    (hle : fuel ≤ fuel') (hfin : (Steps.runIter barAt fuel s).2.2 = true) :
    Steps.runIter barAt fuel' s = Steps.runIter barAt fuel s := by
  induction fuel' with
  | zero => exact (Nat.le_zero.mp hle) ▸ rfl
  | succ f ih =>
    rcases Nat.lt_or_ge fuel (f + 1) with hlt | hge
    · have h1 := ih (Nat.lt_succ_iff.mp hlt)
      rw [← h1] at hfin ⊢
      exact runIter_mono hfin
    · exact (Nat.le_antisymm hle hge) ▸ rfl

/-! ## Termination skeleton -/

theorem G_stop {barAt : ℚ → Bar} {fuel : ℕ} {s : Steps}
    (h : s.iter barAt fuel = .stop) :
    ∃ F, (Steps.runIter barAt F s).2.2 = true :=
  ⟨fuel + 1, by rw [runIter_stop h]⟩

theorem G_of_step {barAt : ℚ → Bar} {fuel : ℕ} {s s' : Steps}
    (h : s.iter barAt fuel = .nextBar s' ∨ s.iter barAt fuel = .skip s' ∨
      ∃ st, s.iter barAt fuel = .emit st s')
    (hG : ∃ f', (Steps.runIter barAt f' s').2.2 = true) :
    ∃ F, (Steps.runIter barAt F s).2.2 = true := by
  obtain ⟨f', hf'⟩ := hG
  have hne : s.iter barAt fuel ≠ .stuck := by
    rcases h with h | h | ⟨st, h⟩ <;> rw [h] <;> simp
  have hiter : s.iter barAt (max fuel f') = s.iter barAt fuel :=
    iter_mono_le (le_max_left _ _) hne
  have hrun : Steps.runIter barAt (max fuel f') s' =
      Steps.runIter barAt f' s' := runIter_mono_le (le_max_right _ _) hf'
  refine ⟨max fuel f' + 1, ?_⟩
  rcases h with h | h | ⟨st, h⟩
  · rw [runIter_nextBar (by rw [hiter, h]), hrun]
    simpa using hf'
  · rw [runIter_skip (by rw [hiter, h]), hrun]
    exact hf'
  · rw [runIter_emit (by rw [hiter, h]), hrun]
    simpa using hf'

end EguiTimeline

namespace EguiTimeline

/-! ## Termination measures -/

/-- Bar-advance budget: each advance pushes the current bar's end past the
previous end by more than half a tick, so this natural number strictly
decreases on every `continue 'bars`. -/
def measBar (s : Steps) : ℕ := ⌈2 * (s.visible_ticks + 1 - s.bar.stop)⌉₊

/-- The effective cursor: the value the cursor will have after the
bar-entry refresh. -/
def cv (s : Steps) : ℚ := if s.index_in_bar = 0 then s.bar.start else s.ticks

/-- The effective step interval: the value the interval will have after the
bar-entry refresh (its stabilised value at a bar entry). -/
def sv (s : Steps) : ℚ :=
  if s.index_in_bar = 0 then canonStep s.ticks_per_beat s.min_step_ticks s.bar
  else s.step_ticks

/-- In-bar budget: the number of step intervals between the effective cursor
and the bar's end, which strictly decreases on every emitted or skipped
step. -/
def measTick (s : Steps) : ℕ := ⌈(s.bar.stop - cv s) / sv s⌉₊

theorem ceil_sub_one_lt {q : ℚ} (hq : 0 < q) : ⌈q - 1⌉₊ < ⌈q⌉₊ := by
  rcases le_or_lt 1 q with h1 | h1
  · rw [Nat.lt_ceil]
    calc (↑⌈q - 1⌉₊ : ℚ) < (q - 1) + 1 := Nat.ceil_lt_add_one (by linarith)
      _ = q := by ring
  · have h2 : ⌈q - 1⌉₊ = 0 := Nat.ceil_eq_zero.mpr (by linarith)
    rw [h2]
    exact Nat.ceil_pos.mpr hq

theorem measBar_dec {barAt : ℚ → Bar} {fuel : ℕ} {s s' : Steps}
    (hI : Inv barAt s) (h : s.iter barAt fuel = .nextBar s') :
    measBar s' < measBar s := by
  have ho := iter_nextBar hI h
  have hq : 1 ≤ s.visible_ticks + 1 - s.bar.stop := by
    linarith [ho.pre_ge, ho.pre_le_vis]
  rw [measBar, measBar, ho.stat_vis]
  have h1 : 2 * (s.visible_ticks + 1 - s'.bar.stop) ≤
      2 * (s.visible_ticks + 1 - s.bar.stop) - 1 := by
    linarith [ho.stop_gt]
  calc ⌈2 * (s.visible_ticks + 1 - s'.bar.stop)⌉₊
      ≤ ⌈2 * (s.visible_ticks + 1 - s.bar.stop) - 1⌉₊ := Nat.ceil_mono h1
    _ < ⌈2 * (s.visible_ticks + 1 - s.bar.stop)⌉₊ :=
        ceil_sub_one_lt (by linarith)

theorem measTick_dec {barAt : ℚ → Bar} {fuel : ℕ} {s s' : Steps}
    (hI : Inv barAt s)
    (hov : s.ticks_per_beat ≤ s.min_step_ticks * 32768)
    (hbot : s.bar.time_sig.bottom < 65536)
    (h : (∃ st, s.iter barAt fuel = .emit st s') ∨ s.iter barAt fuel = .skip s') :
    measTick s' < measTick s ∧ measBar s' = measBar s := by
  have key : s'.bar = s.bar ∧ s'.visible_ticks = s.visible_ticks ∧
      s'.index_in_bar ≠ 0 ∧ 0 < s'.step_ticks ∧
      s'.ticks = cv s + s'.step_ticks ∧ sv s = s'.step_ticks ∧
      cv s < s.bar.stop := by
    rcases h with ⟨st, h⟩ | h
    · have ho := iter_emit hI h
      refine ⟨ho.bar_eq, ho.stat_vis, by rw [ho.idx_eq]; omega, ho.step_pos,
        ?_, ?_, ?_⟩
      · rw [ho.cursor]
        by_cases h0 : s.index_in_bar = 0
        · rw [cv, if_pos h0, (ho.step_src h0).2]
        · rw [cv, if_neg h0, (ho.step_keep h0).2]
      · by_cases h0 : s.index_in_bar = 0
        · rw [sv, if_pos h0]
          exact canonStep_eq hI.min_pos hov hbot (ho.step_src h0).1
        · rw [sv, if_neg h0, (ho.step_keep h0).1]
      · by_cases h0 : s.index_in_bar = 0
        · rw [cv, if_pos h0]
          exact hI.bar_lt
        · rw [cv, if_neg h0]
          have h1 := ho.st_lt_stop
          rw [(ho.step_keep h0).2] at h1
          exact h1
    · have ho := iter_skip hI h
      refine ⟨ho.bar_eq, ho.stat_vis, by rw [ho.idx_eq]; omega, ho.step_pos,
        ?_, ?_, ?_⟩
      · by_cases h0 : s.index_in_bar = 0
        · rw [cv, if_pos h0, ho.pos_eq, ho.idx_eq, h0]
          push_cast
          ring
        · rw [cv, if_neg h0]
          obtain ⟨hstep, hticks⟩ := ho.step_keep h0
          rw [hticks, hstep]
      · by_cases h0 : s.index_in_bar = 0
        · rw [sv, if_pos h0]
          exact canonStep_eq hI.min_pos hov hbot (ho.step_src h0)
        · rw [sv, if_neg h0, (ho.step_keep h0).1]
      · have h1 := ho.cap_lt_stop
        by_cases h0 : s.index_in_bar = 0
        · rw [cv, if_pos h0]
          exact hI.bar_lt
        · rw [cv, if_neg h0]
          obtain ⟨hstep, hticks⟩ := ho.step_keep h0
          rw [hticks, hstep] at h1
          have h2 : s.ticks + s.step_ticks - s.step_ticks = s.ticks := by ring
          rw [h2] at h1
          exact h1
  obtain ⟨hbar, hvis, hidx', hpos, hcur, hsv, hlt⟩ := key
  constructor
  · rw [measTick, measTick, cv, if_neg hidx', sv, if_neg hidx', hbar, hcur,
      ← hsv]
    have hne : sv s ≠ 0 := by rw [hsv]; exact ne_of_gt hpos
    have heq : (s.bar.stop - (cv s + sv s)) / sv s =
        (s.bar.stop - cv s) / sv s - 1 := by
      field_simp
      ring
    rw [heq]
    apply ceil_sub_one_lt
    apply div_pos (by linarith) (by rw [hsv]; exact hpos)
  · rw [measBar, measBar, hbar, hvis]

theorem iter_progress {barAt : ℚ → Bar} {s : Steps} (hI : Inv barAt s)
    (hov : s.ticks_per_beat ≤ s.min_step_ticks * 32768)
    (hbot : s.bar.time_sig.bottom < 65536) :
    ∃ f, s.iter barAt f ≠ IterRes.stuck := by
  by_cases h0 : s.index_in_bar = 0
  · refine ⟨canonFuel s.ticks_per_beat s.min_step_ticks
      (s.bar.time_sig.bottom / 4), ?_⟩
    rw [Ne, iter_stuck_iff]
    unfold Steps.refresh
    rw [if_pos h0, barStepTicks_total hI.min_pos hI.subdivs_ne hov hbot]
    simp
  · refine ⟨0, ?_⟩
    rw [Ne, iter_stuck_iff]
    unfold Steps.refresh
    rw [if_neg h0]
    simp

end EguiTimeline

namespace EguiTimeline

theorem G_cases {barAt : ℚ → Bar} {s : Steps} (hI : Inv barAt s)
    (hbars : ∀ t : ℚ, (barAt t).time_sig.bottom < 65536)
    (hov : s.ticks_per_beat ≤ s.min_step_ticks * 32768)
    (HB : ∀ s', Inv barAt s' →
      s'.ticks_per_beat = s.ticks_per_beat →
      s'.min_step_ticks = s.min_step_ticks →
      measBar s' < measBar s →
      ∃ F, (Steps.runIter barAt F s').2.2 = true)
    (HT : ∀ s', Inv barAt s' →
      s'.ticks_per_beat = s.ticks_per_beat →
      s'.min_step_ticks = s.min_step_ticks →
      measBar s' = measBar s → measTick s' < measTick s →
      ∃ F, (Steps.runIter barAt F s').2.2 = true) :
    ∃ F, (Steps.runIter barAt F s).2.2 = true := by
  have hbot : s.bar.time_sig.bottom < 65536 := by
    obtain ⟨u, hu⟩ := hI.bar_mem
    rw [hu]
    exact hbars u
  obtain ⟨f, hf⟩ := iter_progress hI hov hbot
  cases h : s.iter barAt f with
  | stuck => exact absurd h hf
  | stop => exact G_stop h
  | emit st s1 =>
    obtain ⟨hd, he⟩ := measTick_dec hI hov hbot (Or.inl ⟨st, h⟩)
    have ho := iter_emit hI h
    exact G_of_step (Or.inr (Or.inr ⟨st, h⟩))
      (HT s1 ho.inv' ho.stat_tpb ho.stat_min he hd)
  | skip s1 =>
    obtain ⟨hd, he⟩ := measTick_dec hI hov hbot (Or.inr h)
    have ho := iter_skip hI h
    exact G_of_step (Or.inr (Or.inl h))
      (HT s1 ho.inv' ho.stat_tpb ho.stat_min he hd)
  | nextBar s1 =>
    have ho := iter_nextBar hI h
    exact G_of_step (Or.inl h)
      (HB s1 ho.inv' ho.stat_tpb ho.stat_min (measBar_dec hI h))

/-- For hosts whose time-signature denominators fit in the source's `u16`
and are at least 4, and whose `ticks_per_beat` is at most
`32768 * min_step_ticks` (so the `u16` `beat_subdivs * 2` never overflows),
the generator always terminates. -/
theorem runIter_terminates {barAt : ℚ → Bar}
    (hbars : ∀ t : ℚ, (barAt t).time_sig.bottom < 65536) :
    ∀ (n1 n2 : ℕ) (s : Steps), Inv barAt s →
      s.ticks_per_beat ≤ s.min_step_ticks * 32768 →
      measBar s ≤ n1 → measTick s ≤ n2 →
      ∃ F, (Steps.runIter barAt F s).2.2 = true := by
  intro n1
  induction n1 with
  | zero =>
    intro n2
    induction n2 with
    | zero =>
      intro s hI hov h1 h2
      apply G_cases hI hbars hov
      · intro s' _ _ _ hlt
        exact absurd (lt_of_lt_of_le hlt h1) (Nat.not_lt_zero _)
      · intro s' _ _ _ _ hlt
        exact absurd (lt_of_lt_of_le hlt h2) (Nat.not_lt_zero _)
    | succ n2 ih2 =>
      intro s hI hov h1 h2
      apply G_cases hI hbars hov
      · intro s' _ _ _ hlt
        exact absurd (lt_of_lt_of_le hlt h1) (Nat.not_lt_zero _)
      · intro s' hI' htpb hmin he hlt
        exact ih2 s' hI' (by rw [htpb, hmin]; exact hov) (by omega) (by omega)
  | succ n1 ih1 =>
    intro n2
    induction n2 with
    | zero =>
      intro s hI hov h1 h2
      apply G_cases hI hbars hov
      · intro s' hI' htpb hmin hlt
        exact ih1 (measTick s') s' hI' (by rw [htpb, hmin]; exact hov)
          (by omega) le_rfl
      · intro s' _ _ _ _ hlt
        exact absurd (lt_of_lt_of_le hlt h2) (Nat.not_lt_zero _)
    | succ n2 ih2 =>
      intro s hI hov h1 h2
      apply G_cases hI hbars hov
      · intro s' hI' htpb hmin hlt
        exact ih1 (measTick s') s' hI' (by rw [htpb, hmin]; exact hov)
          (by omega) le_rfl
      · intro s' hI' htpb hmin he hlt
        exact ih2 s' hI' (by rw [htpb, hmin]; exact hov) (by omega) (by omega)

/-! ## The step-count bound -/

/-- `lowb` clamped at zero (steps are only emitted at nonnegative ticks). -/
def lowbN (s : Steps) : ℚ := max (lowb s) 0

/-- One rational unit of budget per bar visit, already spent once the cursor
has reached the bar's end. -/
def paid (s : Steps) : ℚ :=
  if s.bar.stop ≤ s.ticks ∧ s.index_in_bar ≠ 0 then 0 else 1

theorem paid_le_one (s : Steps) : paid s ≤ 1 := by
  rw [paid]
  split_ifs <;> norm_num

theorem lowbN_nonneg (s : Steps) : 0 ≤ lowbN s := le_max_right _ _

/-- Potential invariant: the number of emitted steps is bounded by the
remaining tick budget divided by the minimum step, plus one unit per
remaining bar advance, plus the current bar's unit. -/
theorem runIter_count {barAt : ℚ → Bar} :
    ∀ {fuel : ℕ} {s : Steps}, Inv barAt s →
      ((Steps.runIter barAt fuel s).1.length : ℚ) ≤
        max 0 ((s.visible_ticks - lowbN s) / s.min_step_ticks +
          ((Steps.runIter barAt fuel s).2.1 : ℚ) + paid s) := by
  intro fuel
  induction fuel with
  | zero =>
    intro s _
    rw [runIter_zero]
    simpa using le_max_left 0 _
  | succ f ih =>
    intro s hI
    have hm := hI.min_pos
    cases h : s.iter barAt f with
    | stop =>
      rw [runIter_stop h]
      simpa using le_max_left 0 _
    | stuck =>
      rw [runIter_stuck h]
      simpa using le_max_left 0 _
    | emit st0 s1 =>
      have ho := iter_emit hI h
      rw [runIter_emit h]
      simp only [List.length_cons]
      push_cast
      have hIH := ih ho.inv'
      rw [ho.stat_vis, ho.stat_min] at hIH
      have hpaid : paid s = 1 := by
        rw [paid, if_neg]
        intro ⟨hc1, hc2⟩
        have := (ho.step_keep hc2).2
        rw [← this] at hc1
        exact absurd (lt_of_le_of_lt hc1 ho.st_lt_stop) (lt_irrefl _)
      have hlbs : lowbN s = st0.ticks := by
        rw [lowbN, ho.lowb_eq, max_eq_left ho.st_nonneg]
      set a : ℚ := ((Steps.runIter barAt f s1).2.1 : ℚ) with ha
      have hanneg : 0 ≤ a := by rw [ha]; positivity
      set R : ℚ := (s.visible_ticks - lowbN s) / s.min_step_ticks + a + paid s
        with hR
      have hRge : 1 ≤ R := by
        rw [hR, hpaid]
        have hnum : 0 ≤ s.visible_ticks - lowbN s := by
          rw [hlbs]
          linarith [ho.st_le_vis]
        have : 0 ≤ (s.visible_ticks - lowbN s) / s.min_step_ticks :=
          div_nonneg hnum hm.le
        linarith
      have hR1 : (s.visible_ticks - lowbN s1) / s.min_step_ticks + a + paid s1 ≤
          R - 1 := by
        by_cases hcap : s1.bar.stop ≤ s1.ticks
        · -- the bar budget was spent by this (last-in-bar) step
          have hp1 : paid s1 = 0 := by
            rw [paid, if_pos ⟨hcap, by rw [ho.idx_eq]; omega⟩]
          have hlb1 : lowbN s ≤ lowbN s1 := by
            apply max_le_max _ le_rfl
            rw [ho.lowb_eq]
            exact ho.lowb_lt.le
          have hdivle : (s.visible_ticks - lowbN s1) / s.min_step_ticks ≤
              (s.visible_ticks - lowbN s) / s.min_step_ticks := by
            exact div_le_div_of_nonneg_right (by linarith) hm.le
          rw [hp1, hR, hpaid]
          linarith
        · -- a full minimum step separates the two bounds
          have hstep : s.min_step_ticks ≤ s1.step_ticks := by
            rcases ho.step_ge with hg | hg
            · exact hg
            · exfalso
              have hL := ho.step_pos
              have hcur : s1.ticks = s1.bar.start +
                  ((st0.index_in_bar + 1 : ℕ) : ℚ) * s1.step_ticks := by
                rw [ho.cursor, ho.bar_eq, ho.pos_eq, ho.st_idx]
                push_cast
                ring
              have hk : (1 : ℚ) ≤ ((st0.index_in_bar + 1 : ℕ) : ℚ) := by
                have : 1 ≤ st0.index_in_bar + 1 := Nat.succ_le_succ (Nat.zero_le _)
                exact_mod_cast this
              have hprod : 0 ≤ (((st0.index_in_bar + 1 : ℕ) : ℚ) - 1) *
                  s1.step_ticks := mul_nonneg (by linarith) hL.le
              rw [ho.bar_eq] at hcur
              push_neg at hcap
              rw [ho.bar_eq] at hcap
              nlinarith [hcur, hcap, hprod, hg]
          have hlb1 : lowbN s + s.min_step_ticks ≤ lowbN s1 := by
            have h1 : lowb s1 = s1.ticks := by
              rw [lowb, if_neg (by rw [ho.idx_eq]; omega)]
              exact min_eq_left (le_of_not_le hcap)
            have h2 : lowbN s1 = s1.ticks := by
              rw [lowbN, h1, max_eq_left]
              rw [ho.cursor]
              have := ho.st_nonneg
              have := ho.step_pos
              linarith
            rw [h2, hlbs, ho.cursor]
            linarith
          have hdivle : (s.visible_ticks - lowbN s1) / s.min_step_ticks ≤
              (s.visible_ticks - lowbN s) / s.min_step_ticks - 1 := by
            have h3 : s.visible_ticks - lowbN s1 ≤
                (s.visible_ticks - lowbN s) - s.min_step_ticks := by linarith
            calc (s.visible_ticks - lowbN s1) / s.min_step_ticks
                ≤ ((s.visible_ticks - lowbN s) - s.min_step_ticks) /
                  s.min_step_ticks := by
                  exact div_le_div_of_nonneg_right h3 hm.le
              _ = (s.visible_ticks - lowbN s) / s.min_step_ticks - 1 := by
                  field_simp
          rw [hR, hpaid]
          have := paid_le_one s1
          linarith
      calc ((Steps.runIter barAt f s1).1.length : ℚ) + 1
          ≤ max 0 ((s.visible_ticks - lowbN s1) / s.min_step_ticks + a +
            paid s1) + 1 := by linarith [hIH]
        _ ≤ max 0 (R - 1) + 1 := by
            apply add_le_add_right
            exact max_le_max le_rfl hR1
        _ = max 1 R := by
            rw [← max_add_add_right]
            norm_num
        _ = R := max_eq_right hRge
        _ ≤ max 0 R := le_max_right 0 R
    | nextBar s1 =>
      have ho := iter_nextBar hI h
      rw [runIter_nextBar h]
      simp only
      have hIH := ih ho.inv'
      rw [ho.stat_vis, ho.stat_min] at hIH
      have hpaid : paid s = 0 := by
        rw [paid, if_pos ⟨ho.pre_ge, ho.pre_idx⟩]
      have hlb1 : lowbN s ≤ lowbN s1 := max_le_max ho.lowb_adv le_rfl
      have hdivle : (s.visible_ticks - lowbN s1) / s.min_step_ticks ≤
          (s.visible_ticks - lowbN s) / s.min_step_ticks := by
        exact div_le_div_of_nonneg_right (by linarith) hm.le
      have hp1 := paid_le_one s1
      apply le_trans hIH
      apply max_le_max le_rfl
      push_cast
      rw [hpaid]
      linarith
    | skip s1 =>
      have ho := iter_skip hI h
      rw [runIter_skip h]
      have hIH := ih ho.inv'
      rw [ho.stat_vis, ho.stat_min] at hIH
      have hpaid : paid s = 1 := by
        rw [paid, if_neg]
        intro ⟨hc1, hc2⟩
        obtain ⟨hstep, hticks⟩ := ho.step_keep hc2
        have hcap := ho.cap_lt_stop
        rw [hticks, hstep] at hcap
        have h2 : s.ticks + s.step_ticks - s.step_ticks = s.ticks := by ring
        rw [h2] at hcap
        exact absurd (lt_of_le_of_lt hc1 hcap) (lt_irrefl _)
      have hlb1 : lowbN s ≤ lowbN s1 := max_le_max ho.lowb_le le_rfl
      have hdivle : (s.visible_ticks - lowbN s1) / s.min_step_ticks ≤
          (s.visible_ticks - lowbN s) / s.min_step_ticks := by
        exact div_le_div_of_nonneg_right (by linarith) hm.le
      have hp1 := paid_le_one s1
      apply le_trans hIH
      apply max_le_max le_rfl
      rw [hpaid]
      linarith

end EguiTimeline

namespace EguiTimeline

/-- C3 as amended: restricted to the inputs the generator can actually
handle — time-signature denominators at least 4 (for a denominator below 4
the subdivision loop diverges, see the counterexample) and within the
source's `u16` range, and `ticks_per_beat ≤ 32768 * min_step_ticks` (a
zoom so fine that `ticks_per_beat / min_step_ticks > 65536` makes the `u16`
`beat_subdivs * 2` overflow: wrap to 0 in release, giving the `f32` `+∞`
quotient that loops forever; panic in debug) — every generation pass
terminates (`Steps::next` eventually returns `None`: the driver reaches the
`stop` outcome at some finite fuel), and for every fuel the number of
emitted steps is bounded by `visible_ticks / min_step_ticks` plus the
number of bars crossed (bar advances plus the initial bar). -/
theorem claim_C3_amended_termination (barAt : ℚ → Bar) (s : Steps)
    (hI : Inv barAt s) (hvis : 0 ≤ s.visible_ticks)
    (hbars : ∀ t : ℚ, (barAt t).time_sig.bottom < 65536)
    (hov : s.ticks_per_beat ≤ s.min_step_ticks * 32768) :
    (∀ fuel, ((Steps.runIter barAt fuel s).1.length : ℚ) ≤
        s.visible_ticks / s.min_step_ticks +
        (((Steps.runIter barAt fuel s).2.1 : ℚ) + 1)) ∧
    (∃ fuel, (Steps.runIter barAt fuel s).2.2 = true) := by
  constructor
  · intro fuel
    have h := @runIter_count barAt fuel s hI
    have hm := hI.min_pos
    have h1 : (s.visible_ticks - lowbN s) / s.min_step_ticks ≤
        s.visible_ticks / s.min_step_ticks :=
      div_le_div_of_nonneg_right (by linarith [lowbN_nonneg s]) hm.le
    have h2 := paid_le_one s
    have h3 : (0 : ℚ) ≤ s.visible_ticks / s.min_step_ticks :=
      div_nonneg hvis hm.le
    have h4 : (0 : ℚ) ≤ ((Steps.runIter barAt fuel s).2.1 : ℚ) := by positivity
    have h5 : max 0 ((s.visible_ticks - lowbN s) / s.min_step_ticks +
        ((Steps.runIter barAt fuel s).2.1 : ℚ) + paid s) ≤
        s.visible_ticks / s.min_step_ticks +
        (((Steps.runIter barAt fuel s).2.1 : ℚ) + 1) := by
      apply max_le (by linarith) (by linarith)
    linarith
  · exact runIter_terminates hbars (measBar s) (measTick s) s hI hov le_rfl le_rfl

/-- Bars in time signature 4/2: the denominator 2 makes the integer
division `bottom / 4` zero. -/
def dBars : ℚ → Bar := uniformBars 16 0 ⟨4, 2⟩

def dInit : Steps := Steps.new dBars 120 1 800 4

/-- C3, counterexample to the claim as stated ("quantified over ... any time
signature the host may supply"): with time signature 4/2 (denominator 2 < 4),
`beat_subdivs = 2 / 4 = 0` and the `f32` step `120 / 0 = +∞` passes the
`step_ticks >= min_step_ticks` test, so the doubling loop never terminates:
the generator never returns, i.e. no fuel ever completes the pass. -/
theorem claim_C3_counterexample :
    ¬ ∃ fuel, (Steps.runIter dBars fuel dInit).2.2 = true := by
  have hstuck : ∀ f, dInit.iter dBars f = .stuck := by
    intro f
    rw [iter_stuck_iff]
    norm_num [Steps.refresh, dInit, Steps.new, barStepTicks, dBars, uniformBars]
  rintro ⟨fuel, hf⟩
  cases fuel with
  | zero => rw [runIter_zero] at hf; exact Bool.noConfusion hf
  | succ f => rw [runIter_stuck (hstuck f)] at hf; exact Bool.noConfusion hf

theorem claim_C3_witness :
    ((Steps.runIter cBars 12 cInit).1.length : ℚ) ≤
      cInit.visible_ticks / cInit.min_step_ticks +
      (((Steps.runIter cBars 12 cInit).2.1 : ℚ) + 1) ∧
    ∃ fuel, (Steps.runIter cBars fuel cInit).2.2 = true :=
  ⟨(claim_C3_amended_termination cBars cInit cInit_inv
      (by norm_num [cInit, Steps.new])
      (by intro t; norm_num [cBars, uniformBars])
      (by norm_num [cInit, Steps.new])).1 12,
   (claim_C3_amended_termination cBars cInit cInit_inv
      (by norm_num [cInit, Steps.new])
      (by intro t; norm_num [cBars, uniformBars])
      (by norm_num [cInit, Steps.new])).2⟩

end EguiTimeline
